import Mathlib

/-!
Shallow embedding of the core of the `taosws-rs` repository
(block codec, null bitmap, column views, websocket client glue and the
`mdsn` DSN parser), together with theorems settling the frozen claims.

Bytes are modelled as `List Nat` with each element intended to be `< 256`;
wherever a claim needs the byte bound it appears as an explicit hypothesis.
Machine integers are modelled as `Nat`/`Int` with explicit `% 2 ^ w`
arithmetic where overflow matters, and fallible code returns `Option`
(`none` models a Rust panic or an unreachable arm).
-/

namespace TaosWs

/-- Little-endian unsigned value of a byte list (each byte `< 256`). -/
def leUint : List Nat → Nat
  | [] => 0
  | b :: rest => b + 256 * leUint rest

/-- The `k` little-endian bytes of `n` (i.e. `n % 256 ^ k` serialised). -/
def lePad : Nat → Nat → List Nat
  | 0, _ => []
  | k + 1, n => n % 256 :: lePad k (n / 256)

/-- Byte slice `[start, start + len)` of a buffer, as `Bytes::slice` does. -/
def byteSlice (bytes : List Nat) (start len : Nat) : List Nat :=
  (bytes.drop start).take len

/-- Bytes of element `r` in a dense column of `size`-byte elements. -/
def elemBytes (data : List Nat) (size r : Nat) : List Nat :=
  byteSlice data (r * size) size

/-! ### Null bitmap (`src/taos-query/src/common/raw/views/nulls.rs`) -/

/-- `null_bits_len`: bytes needed for a bitmap over `len` rows. -/
def null_bits_len (len : Nat) : Nat := (len + 7) / 8

/-- `NullsMut::new`: a zeroed bitmap of `(len + 7) / 8` bytes. -/
def NullsMut.new (len : Nat) : List Nat := List.replicate (null_bits_len len) 0

/-- `set_null_unchecked`: set bit `7 - (index & 7)` of byte `index >> 3`. -/
def set_null_unchecked (l : List Nat) (index : Nat) : List Nat :=
  l.set (index >>> 3) (l.getD (index >>> 3) 0 ||| 1 <<< (7 - (index &&& 7)))

/-- `is_null_unchecked`: test bit `7 - (row & 7)` of byte `row >> 3`. -/
def is_null_unchecked (l : List Nat) (row : Nat) : Bool :=
  (l.getD (row >>> 3) 0 >>> (7 - (row &&& 7))) &&& 1 == 1

/-- Body of `from_bools`: walk the bool list with its enumeration index,
setting a bit for every `true` (the `enumerate().for_each` loop). -/
def from_bools_aux (l : List Nat) (i : Nat) : List Bool → List Nat
  | [] => l
  | b :: rest => from_bools_aux (if b then set_null_unchecked l i else l) (i + 1) rest

/-- `NullsMut::from_bools`: a fresh bitmap with exactly the given bits set. -/
def from_bools (bs : List Bool) : List Nat :=
  from_bools_aux (NullsMut.new bs.length) 0 bs

/-! ### Column type tags and sentinel table
(`Ty` from `taos-query::common`, as used by `src/taos-query/src/common/raw/mod.rs`) -/

/-- Timestamp precision (`Precision`): millisecond, microsecond or nanosecond. -/
inductive Precision where
  | millisecond
  | microsecond
  | nanosecond
deriving DecidableEq, Repr

/-- The closed set of column type tags (`Ty`). -/
inductive Ty where
  | null
  | bool
  | tinyInt
  | smallInt
  | int
  | bigInt
  | uTinyInt
  | uSmallInt
  | uInt
  | uBigInt
  | float
  | double
  | timestamp
  | varChar
  | nChar
  | json
  | varBinary
  | decimal
  | blob
  | mediumBlob
deriving DecidableEq, Repr

/-- Element size and v2 null-sentinel bit pattern for the fixed-width types,
from the `*_NULL` constants and `*_is_null` helpers of
`RawData::parse_from_raw_block_v2`.  `none` for variable-length and
unsupported types. -/
def Ty.fixedInfo : Ty → Option (Nat × Nat)
  | .bool => some (1, 0x02)
  | .tinyInt => some (1, 0x80)
  | .smallInt => some (2, 0x8000)
  | .int => some (4, 0x80000000)
  | .bigInt => some (8, 0x8000000000000000)
  | .uTinyInt => some (1, 0xFF)
  | .uSmallInt => some (2, 0xFFFF)
  | .uInt => some (4, 0xFFFFFFFF)
  | .uBigInt => some (8, 0xFFFFFFFFFFFFFFFF)
  | .float => some (4, 0x7FF00000)
  | .double => some (8, 0x7FFFFF0000000000)
  | .timestamp => some (8, 0x8000000000000000)
  | _ => none

/-! ### Timestamp view (`src/taos-query/src/common/raw/views/timestamp_view.rs`) -/

/-- A decoded timestamp value: the raw `i64` together with its precision
(`Timestamp::new(value, precision)`). -/
structure TimestampValue where
  value : Int
  precision : Precision
deriving DecidableEq, Repr

/-- `TimestampView { nulls, data, precision }`. -/
structure TimestampView where
  nulls : List Nat
  data : List Nat
  precision : Precision
deriving DecidableEq, Repr

/-- Signed little-endian 64-bit read (`i64` on a little-endian machine). -/
def leI64 (bs : List Nat) : Int :=
  let u := leUint bs
  if u < 2 ^ 63 then (u : Int) else (u : Int) - 2 ^ 64

namespace TimestampView

/-- `TimestampView::len`: `data.len() / size_of::<i64>()`. -/
def len (v : TimestampView) : Nat := v.data.length / 8

/-- `TimestampView::is_null`: in-range rows consult the bitmap, rows at or
beyond `len()` report `false`. -/
def is_null (v : TimestampView) (row : Nat) : Bool :=
  if row < v.len then is_null_unchecked v.nulls row else false

/-- `TimestampView::get_unchecked`: `None` when the bitmap marks the row,
otherwise the row's `i64` with the view's precision. -/
def get_unchecked (v : TimestampView) (row : Nat) : Option TimestampValue :=
  if is_null_unchecked v.nulls row then none
  else some ⟨leI64 (elemBytes v.data 8 row), v.precision⟩

/-- `TimestampView::get`: guarded by `row < len()`. -/
def get (v : TimestampView) (row : Nat) : Option TimestampValue :=
  if row < v.len then v.get_unchecked row else none

end TimestampView

/-! ### Column views (`ColumnView` of `src/taos-query/src/common/raw/`) -/

/-- A column view.  The per-type fixed-width structs (`BoolView`,
`IntView`, …) all carry `{ nulls, data }` and are modelled by one
constructor tagged with the type; `TimestampView` additionally carries a
precision, and the variable-length views carry offsets. -/
inductive ColumnView where
  | fixedWidth (ty : Ty) (nulls : List Nat) (data : List Nat)
  | timestampV (v : TimestampView)
  | varCharV (offsets : List Int) (data : List Nat)
  | nCharV (offsets : List Int) (data : List Nat) (is_chars : Bool)
  | jsonV (offsets : List Int) (data : List Nat)
deriving DecidableEq, Repr

/-- Project the `(type, nulls, data)` of a fixed-width column view
(including timestamp views, whose type is `Ty.timestamp`). -/
def ColumnView.fixed_data : ColumnView → Option (Ty × List Nat × List Nat)
  | .fixedWidth t n d => some (t, n, d)
  | .timestampV v => some (.timestamp, v.nulls, v.data)
  | _ => none

/-! ### v2 decode (`RawData::parse_from_raw_block_v2`) -/

/-- Null bitmap of a dense v2 fixed-width column: element `r` is null iff
its little-endian unsigned value equals the sentinel `pattern`
(the `value_slice.iter().map(.._is_null..)` of `_primitive_view!`). -/
def v2_fixed_nulls (data : List Nat) (size pattern rows : Nat) : List Nat :=
  from_bools ((List.range rows).map (fun r => leUint (elemBytes data size r) == pattern))

/-- Null bitmap of a v2 `Bool` column: `data.iter().map(|b| *b as u64 == BOOL_NULL)`. -/
def v2_bool_nulls (data : List Nat) : List Nat :=
  from_bools (data.map (fun b => b == 2))

/-- v2 `VarChar` offsets: slot `r` starts at `r * length`; the slot is null
(`-1`) when its 2-byte length prefix is `1` and the following byte is `0xFF`. -/
def v2_varchar_offsets (data : List Nat) (length rows : Nat) : List Int :=
  (List.range rows).map (fun r =>
    if leUint (byteSlice data (r * length) 2) == 1 && data.getD (r * length + 2) 0 == 0xFF
    then -1 else (r : Int) * (length : Int))

/-- v2 `NChar`/`Json` offsets: the slot is null when its 2-byte length
prefix is `4` and the following 4 bytes are `0xFFFFFFFF`. -/
def v2_nchar_offsets (data : List Nat) (length rows : Nat) : List Int :=
  (List.range rows).map (fun r =>
    if leUint (byteSlice data (r * length) 2) == 4 &&
        leUint (byteSlice data (r * length + 2) 4) == 0xFFFFFFFF
    then -1 else (r : Int) * (length : Int))

/-- One fixed-width column step of the v2 decoder (`_primitive_view!`):
consume `rows * size` bytes from `offset` and build the view; `none`
models the panic of `Bytes::slice` on an out-of-range slice. -/
def v2_fixed_step (bytes : List Nat) (rows offset size pattern : Nat) (ty : Ty) :
    Option (ColumnView × Nat) :=
  let newOff := offset + rows * size
  if newOff ≤ bytes.length then
    let data := byteSlice bytes offset (rows * size)
    some (.fixedWidth ty (v2_fixed_nulls data size pattern rows) data, newOff)
  else none

/-- One column of the v2 decoder: the per-type arm of the
`for (i, (field, length)) in fields.zip(lengths)` loop body of
`parse_from_raw_block_v2`.  `none` models a panic: out-of-range slice,
`Ty::Null => unreachable!()`, or the `todo!()` arms (`VarBinary`,
`Decimal`, `Blob`, `MediumBlob`). -/
def v2_col_step (bytes : List Nat) (rows : Nat) (precision : Precision)
    (ty : Ty) (length offset : Nat) : Option (ColumnView × Nat) :=
  match ty with
  | .bool =>
    if offset + rows ≤ bytes.length then
      let data := byteSlice bytes offset rows
      some (.fixedWidth .bool (v2_bool_nulls data) data, offset + rows)
    else none
  | .tinyInt => v2_fixed_step bytes rows offset 1 0x80 .tinyInt
  | .smallInt => v2_fixed_step bytes rows offset 2 0x8000 .smallInt
  | .int => v2_fixed_step bytes rows offset 4 0x80000000 .int
  | .bigInt => v2_fixed_step bytes rows offset 8 0x8000000000000000 .bigInt
  | .uTinyInt => v2_fixed_step bytes rows offset 1 0xFF .uTinyInt
  | .uSmallInt => v2_fixed_step bytes rows offset 2 0xFFFF .uSmallInt
  | .uInt => v2_fixed_step bytes rows offset 4 0xFFFFFFFF .uInt
  | .uBigInt => v2_fixed_step bytes rows offset 8 0xFFFFFFFFFFFFFFFF .uBigInt
  | .float => v2_fixed_step bytes rows offset 4 0x7FF00000 .float
  | .double => v2_fixed_step bytes rows offset 8 0x7FFFFF0000000000 .double
  | .timestamp =>
    if offset + rows * 8 ≤ bytes.length then
      let data := byteSlice bytes offset (rows * 8)
      some (.timestampV
        ⟨v2_fixed_nulls data 8 0x8000000000000000 rows, data, precision⟩,
        offset + rows * 8)
    else none
  | .varChar =>
    if offset + length * rows ≤ bytes.length then
      let data := byteSlice bytes offset (length * rows)
      some (.varCharV (v2_varchar_offsets data length rows) data,
        offset + length * rows)
    else none
  | .nChar =>
    if offset + length * rows ≤ bytes.length then
      let data := byteSlice bytes offset (length * rows)
      some (.nCharV (v2_nchar_offsets data length rows) data false,
        offset + length * rows)
    else none
  | .json =>
    if offset + length * rows ≤ bytes.length then
      let data := byteSlice bytes offset (length * rows)
      some (.jsonV (v2_nchar_offsets data length rows) data,
        offset + length * rows)
    else none
  | _ => none

/-- The per-column walk of `parse_from_raw_block_v2` over
`fields.zip(lengths)` (each element is the field's type together with its
`lengths[i]` entry), threading the byte offset. -/
def parse_v2_cols (bytes : List Nat) (rows : Nat) (precision : Precision) :
    List (Ty × Nat) → Nat → Option (List ColumnView × Nat)
  | [], offset => some ([], offset)
  | (ty, length) :: rest, offset =>
    match v2_col_step bytes rows precision ty length offset with
    | none => none
    | some (cv, newOff) =>
      match parse_v2_cols bytes rows precision rest newOff with
      | none => none
      | some (cols, fin) => some (cv :: cols, fin)

/-- `RawData::parse_from_raw_block_v2`: decode a dense v2 payload into
column views (the remaining block fields — schemas synthesised from the
fields, the filled `data_lengths`, group id 0 — are not needed by the
claims about this function). -/
def parse_from_raw_block_v2 (bytes : List Nat) (fields : List (Ty × Nat))
    (rows : Nat) (precision : Precision) : Option (List ColumnView) :=
  (parse_v2_cols bytes rows precision fields 0).map (·.1)

/-! ### v3 decode (`RawData::parse_from_raw_block`) -/

/-- Signed little-endian 32-bit read (`i32` on a little-endian machine). -/
def leI32 (bs : List Nat) : Int :=
  let u := leUint bs
  if u < 2 ^ 31 then (u : Int) else (u : Int) - 2 ^ 32

/-- Column schema entry: 2-byte type tag plus 4-byte declared length
(`ColSchema`). -/
structure ColSchema where
  ty : Ty
  len : Nat
deriving DecidableEq, Repr

/-- Numeric type tags of the wire format, as fixed by the schema bytes of
the in-repo fixture test `test_block_parser` (tag 9 = Timestamp with
element size 8, 1 = Bool, …).  Unknown tags yield `none`. -/
def tyFromTag : Nat → Option Ty
  | 1 => some .bool
  | 2 => some .tinyInt
  | 3 => some .smallInt
  | 4 => some .int
  | 5 => some .bigInt
  | 6 => some .float
  | 7 => some .double
  | 8 => some .varChar
  | 9 => some .timestamp
  | 10 => some .nChar
  | 11 => some .uTinyInt
  | 12 => some .uSmallInt
  | 13 => some .uInt
  | 14 => some .uBigInt
  | 15 => some .json
  | 16 => some .varBinary
  | 17 => some .decimal
  | 20 => some .blob
  | 21 => some .mediumBlob
  | _ => none

/-- One fixed-width column of the v3 decoder (`_primitive_value!`):
`(rows + 7) / 8` bitmap bytes then `rows * size` payload bytes. -/
def v3_fixed_step (bytes : List Nat) (rows offset size : Nat) (ty : Ty) :
    Option (ColumnView × Nat) :=
  let o2 := offset + ((rows + 7) >>> 3)
  let newOff := o2 + rows * size
  if newOff ≤ bytes.length then
    some (.fixedWidth ty (byteSlice bytes offset ((rows + 7) >>> 3))
      (byteSlice bytes o2 (rows * size)), newOff)
  else none

/-- The `rows` signed 32-bit offsets of a v3 variable-length column. -/
def v3_offsets (bytes : List Nat) (offset rows : Nat) : List Int :=
  (List.range rows).map (fun r => leI32 (byteSlice bytes (offset + 4 * r) 4))

/-- One variable-length column of the v3 decoder: `4 * rows` offset bytes
then `length` payload bytes. -/
def v3_var_step (bytes : List Nat) (rows offset length : Nat)
    (mk : List Int → List Nat → ColumnView) : Option (ColumnView × Nat) :=
  let o2 := offset + 4 * rows
  let newOff := o2 + length
  if newOff ≤ bytes.length then
    some (mk (v3_offsets bytes offset rows) (byteSlice bytes o2 length), newOff)
  else none

/-- One column of the v3 decoder's per-column walk.  `none` models a panic:
out-of-range slice, `Ty::Null => unreachable!`, or the catch-all
`unreachable!("unsupported type")`. -/
def v3_col_step (bytes : List Nat) (rows : Nat) (precision : Precision)
    (ty : Ty) (length offset : Nat) : Option (ColumnView × Nat) :=
  match ty with
  | .bool => v3_fixed_step bytes rows offset 1 .bool
  | .tinyInt => v3_fixed_step bytes rows offset 1 .tinyInt
  | .smallInt => v3_fixed_step bytes rows offset 2 .smallInt
  | .int => v3_fixed_step bytes rows offset 4 .int
  | .bigInt => v3_fixed_step bytes rows offset 8 .bigInt
  | .float => v3_fixed_step bytes rows offset 4 .float
  | .double => v3_fixed_step bytes rows offset 8 .double
  | .uTinyInt => v3_fixed_step bytes rows offset 1 .uTinyInt
  | .uSmallInt => v3_fixed_step bytes rows offset 2 .uSmallInt
  | .uInt => v3_fixed_step bytes rows offset 4 .uInt
  | .uBigInt => v3_fixed_step bytes rows offset 8 .uBigInt
  | .timestamp =>
    let o2 := offset + ((rows + 7) >>> 3)
    let newOff := o2 + rows * 8
    if newOff ≤ bytes.length then
      some (.timestampV ⟨byteSlice bytes offset ((rows + 7) >>> 3),
        byteSlice bytes o2 (rows * 8), precision⟩, newOff)
    else none
  | .varChar => v3_var_step bytes rows offset length (fun o d => .varCharV o d)
  | .nChar => v3_var_step bytes rows offset length (fun o d => .nCharV o d true)
  | .json => v3_var_step bytes rows offset length (fun o d => .jsonV o d)
  | _ => none

/-- The per-column walk of `parse_from_raw_block` over the zipped schema
and length tables, threading `data_offset`. -/
def parse_v3_cols (bytes : List Nat) (rows : Nat) (precision : Precision) :
    List (ColSchema × Nat) → Nat → Option (List ColumnView × Nat)
  | [], offset => some ([], offset)
  | (schema, length) :: rest, offset =>
    match v3_col_step bytes rows precision schema.ty length offset with
    | none => none
    | some (cv, newOff) =>
      match parse_v3_cols bytes rows precision rest newOff with
      | none => none
      | some (cols, fin) => some (cv :: cols, fin)

/-- The per-column schema table: 6-byte entries starting at offset 12
(2-byte type tag, 4-byte declared length). -/
def v3_schemas (bytes : List Nat) (cols : Nat) : Option (List ColSchema) :=
  (List.range cols).mapM (fun i =>
    (tyFromTag (leUint (byteSlice bytes (12 + 6 * i) 2))).map
      (fun t => ColSchema.mk t (leUint (byteSlice bytes (12 + 6 * i + 2) 4))))

/-- The per-column payload byte lengths: 4-byte entries after the schemas. -/
def v3_lengths (bytes : List Nat) (cols : Nat) : List Nat :=
  (List.range cols).map (fun i => leUint (byteSlice bytes (12 + 6 * cols + 4 * i) 4))

/-- The 4-byte little-endian total length declared in the v3 header. -/
def v3_declared_len (bytes : List Nat) : Nat := leUint (byteSlice bytes 0 4)

/-- A decoded raw block (`RawData`), keeping the fields the claims
consult. -/
structure RawData where
  rows : Nat
  precision : Precision
  group_id : Nat
  columns : List ColumnView
deriving DecidableEq, Repr

/-- `RawData::parse_from_raw_block` together with the final value of the
walking `data_offset`: read group id, schemas and lengths from the header,
then walk the columns from `lengths_end`.  The declared total length at
bytes 0..4 is read but never compared against anything (the source checks
only `debug_assert!(data_offset <= len)` per column). -/
def parse_from_raw_block_full (bytes : List Nat) (rows cols : Nat)
    (precision : Precision) : Option (RawData × Nat) :=
  let schemaEnd := 12 + cols * 6
  let lengthsEnd := schemaEnd + 4 * cols
  if lengthsEnd ≤ bytes.length then
    match v3_schemas bytes cols with
    | none => none
    | some schemas =>
      match parse_v3_cols bytes rows precision
          (schemas.zip (v3_lengths bytes cols)) lengthsEnd with
      | none => none
      | some (columns, fin) =>
        some (⟨rows, precision, leUint (byteSlice bytes 4 8), columns⟩, fin)
  else none

/-- `RawData::parse_from_raw_block`: the decoded block. -/
def parse_from_raw_block (bytes : List Nat) (rows cols : Nat)
    (precision : Precision) : Option RawData :=
  (parse_from_raw_block_full bytes rows cols precision).map (·.1)

/-- The cumulative consumed byte offset after walking all columns. -/
def v3_consumed_offset (bytes : List Nat) (rows cols : Nat)
    (precision : Precision) : Option Nat :=
  (parse_from_raw_block_full bytes rows cols precision).map (·.2)

/-! ### Block surface (`RawData::is_null` / `RawData::get_ref`) -/

/-- A borrowed cell value, kept shallow: null, or the cell's type with its
raw bytes, or a timestamp. -/
inductive BorrowedValue where
  | null
  | rawValue (ty : Ty) (bs : List Nat)
  | ts (v : TimestampValue)
deriving DecidableEq, Repr

/-- Modelled from the spec: `ColumnView::is_null_unchecked`
(`views/mod.rs`, not under `src/`) — fixed-width views consult the null
bitmap, variable-length views are null when the row's offset is `-1`
(spec §3 offsets vector, §4.3 views). -/
def ColumnView.is_null_at : ColumnView → Nat → Bool
  | .fixedWidth _ nulls _, row => is_null_unchecked nulls row
  | .timestampV v, row => is_null_unchecked v.nulls row
  | .varCharV offsets _, row => offsets.getD row 0 == -1
  | .nCharV offsets _ _, row => offsets.getD row 0 == -1
  | .jsonV offsets _, row => offsets.getD row 0 == -1

/-- Modelled from the spec: `ColumnView::get_ref_unchecked`
(`views/mod.rs`, not under `src/`) — a null cell yields `Null`, otherwise
the cell's typed value (kept as its type plus raw payload bytes; spec
§4.3: `get(r) → Option<Value>`, length-prefixed payloads for
variable-length columns). -/
def ColumnView.get_ref_at : ColumnView → Nat → BorrowedValue
  | .fixedWidth t nulls data, row =>
    if is_null_unchecked nulls row then .null
    else .rawValue t (elemBytes data ((t.fixedInfo.getD (0, 0)).1) row)
  | .timestampV v, row =>
    match v.get_unchecked row with
    | none => .null
    | some ts => .ts ts
  | .varCharV offsets data, row =>
    let off := offsets.getD row 0
    if off == -1 then .null
    else .rawValue .varChar (byteSlice data (off.toNat + 2)
      (leUint (byteSlice data off.toNat 2)))
  | .nCharV offsets data _, row =>
    let off := offsets.getD row 0
    if off == -1 then .null
    else .rawValue .nChar (byteSlice data (off.toNat + 2)
      (leUint (byteSlice data off.toNat 2)))
  | .jsonV offsets data, row =>
    let off := offsets.getD row 0
    if off == -1 then .null
    else .rawValue .json (byteSlice data (off.toNat + 2)
      (leUint (byteSlice data off.toNat 2)))

/-- `RawData::ncols`: `columns.len()`. -/
def RawData.ncols (m : RawData) : Nat := m.columns.length

/-- `RawData::nrows`: the stored row count. -/
def RawData.nrows (m : RawData) : Nat := m.rows

/-- `RawData::is_null`: out-of-range `(row, col)` is reported null without
consulting any column view. -/
def RawData.is_null (m : RawData) (row col : Nat) : Bool :=
  if m.nrows ≤ row ∨ m.ncols ≤ col then true
  else (m.columns.getD col (.fixedWidth .null [] [])).is_null_at row

/-- `RawData::get_ref`: out-of-range `(row, col)` yields `None` without
consulting any column view. -/
def RawData.get_ref (m : RawData) (row col : Nat) : Option BorrowedValue :=
  if m.nrows ≤ row ∨ m.ncols ≤ col then none
  else some ((m.columns.getD col (.fixedWidth .null [] [])).get_ref_at row)

/-- Group id, schema entry (Bool, declared length 1), length entry and the
one-column payload (1 bitmap byte + 1 data byte) of a tiny v3 block body,
to be prefixed with an arbitrary 4-byte declared total length. -/
def v3DemoRest : List Nat :=
  [0, 0, 0, 0, 0, 0, 0, 0] ++ [1, 0] ++ [1, 0, 0, 0] ++ [1, 0, 0, 0] ++ [0] ++ [0]

/-! ### Reader task: binary frame dispatch
(`Message::Binary` arm of the reader loop in `src/taos-ws/src/asyn.rs`) -/

/-- A value delivered on a fetch channel (`WsFetchData`), keeping the
variants the binary arm produces: a v3 raw block or a v2 dense payload. -/
inductive WsFetchData where
  | block (bytes : List Nat)
  | blockV2 (bytes : List Nat)
deriving DecidableEq, Repr

/-- The binary arm of the reader task.  Modelled from the spec for the
byte order only: `read_u64`/`read_u32` come from
`taos_query::util::InlinableRead` (not under `src/`) and per spec §4.5
read little-endian integers.  The first 8 bytes are the `res_id`, bytes
8..12 a 32-bit length; the remainder `block[8..]` is a v3 raw block
exactly when `block.len() == len + 8`, else a v2 payload.  `none` models
the `unwrap` panic on a frame shorter than 12 bytes. -/
def binary_frame_dispatch (block : List Nat) : Option (Nat × WsFetchData) :=
  if 12 ≤ block.length then
    let res_id := leUint (block.take 8)
    let len := leUint ((block.drop 8).take 4)
    if block.length = len + 8 then some (res_id, .block (block.drop 8))
    else some (res_id, .blockV2 (block.drop 8))
  else none

/-- Routing of the dispatched payload: `fetches_sender.read(&res_id, ..)`
sends to the channel registered under `res_id` and does nothing when the
id is absent.  The channel is represented by an opaque token. -/
def reader_binary_route (fetches : Nat → Option Nat) (block : List Nat) :
    Option (Nat × WsFetchData) :=
  match binary_frame_dispatch block with
  | none => none
  | some (res_id, data) =>
    match fetches res_id with
    | none => none
    | some chan => some (chan, data)

/-! ### ResultSet drop (`impl Drop for ResultSet`, `src/taos-ws/src/asyn.rs`) -/

/-- `WsResArgs { req_id, id }`. -/
structure WsResArgs where
  req_id : Nat
  id : Nat
deriving DecidableEq, Repr

/-- The outbound message the drop handler enqueues (`WsSend::Close`). -/
inductive WsSend where
  | close (args : WsResArgs)
deriving DecidableEq, Repr

/-- `ResultSet::drop`: when the receiver is still present (non-terminal
state), remove `args.id` from the fetches map and enqueue
`WsSend::Close(args)`; the send result is discarded (`let _ = ws.send(..)`),
which `enqueue_ok` records without influencing anything. -/
def result_set_drop (fetches : Nat → Option Nat) (receiver_present : Bool)
    (args : WsResArgs) (enqueue_ok : Bool) : (Nat → Option Nat) × List WsSend :=
  if receiver_present then
    (fun k => if k = args.id then none else fetches k, [WsSend.close args])
  else (fetches, [])

/-! ### Connection setup (`WsAsyncClient::from_wsinfo`, `src/taos-ws/src/asyn.rs`) -/

/-- Outcome of awaiting the version-probe reply (2-second timeout). -/
inductive ProbeOutcome where
  | timeout
  | nonText
  | otherAction
  | versionMsg (code : Nat) (version : String)
deriving DecidableEq, Repr

/-- Outcome of awaiting the conn reply.  `missing` is a reader stream that
yielded `None` or `Err(_)` (the `if let Some(Ok(..))` silently skips it);
`otherReply` is a text frame with a different action or a non-text frame
(both hit `unreachable!`). -/
inductive ConnReply where
  | missing
  | connMsg (code : Nat)
  | otherReply
deriving DecidableEq, Repr

/-- A connection error surfaced to the caller (server code via `ok?`). -/
inductive ConnectError where
  | server (code : Nat)
deriving DecidableEq, Repr

/-- The version-resolution step of `from_wsinfo`: only a well-formed
version reply is consulted (`ok?` then its version string); every other
outcome — timeout, non-text frame, different action — falls back to
`"2.x"`. -/
def version_step : ProbeOutcome → Except ConnectError String
  | .versionMsg code v => if code = 0 then .ok v else .error (.server code)
  | _ => .ok "2.x"

/-- The conn step of `from_wsinfo`: a missing reply is skipped silently,
a conn reply propagates its server code via `ok?`, anything else panics
(`unreachable!`, modelled as `none`). -/
def conn_step : ConnReply → Option (Except ConnectError Unit)
  | .missing => some (.ok ())
  | .connMsg code => some (if code = 0 then .ok () else .error (.server code))
  | .otherReply => none

/-- `from_wsinfo` after the websocket handshake: resolve the version
(caching its string), then run the conn step; the cached version is
returned on success. -/
def from_wsinfo_model (probe : ProbeOutcome) (conn : ConnReply) :
    Option (Except ConnectError String) :=
  match version_step probe with
  | .error e => some (.error e)
  | .ok v =>
    match conn_step conn with
    | none => none
    | some (.error e) => some (.error e)
    | some (.ok _) => some (.ok v)

/-! ### DSN descriptor (`src/mdsn/src/lib.rs`) -/

/-- `Address { host, port, path }`.  Invariant kept by the parser: `path`
never co-occurs with `host`/`port`. -/
structure Address where
  host : Option (List Char)
  port : Option Nat
  path : Option (List Char)
deriving DecidableEq, Repr

/-- `Dsn`: the parsed connection descriptor.  `params` models the
`BTreeMap` as an association list kept sorted by key. -/
structure Dsn where
  driver : List Char
  protocol : Option (List Char)
  username : Option (List Char)
  password : Option (List Char)
  addresses : List Address
  fragment : Option (List Char)
  database : Option (List Char)
  params : List (List Char × List Char)
deriving DecidableEq, Repr

/-- Decimal digits of `n`, as Rust's `u16: Display` prints a port. -/
def natToDigits (n : Nat) : List Char :=
  if h : n < 10 then [Char.ofNat (48 + n)]
  else natToDigits (n / 10) ++ [Char.ofNat (48 + n % 10)]
decreasing_by exact Nat.div_lt_self (by omega) (by omega)

/-- The characters `urlencoding::encode` leaves unchanged:
`[A-Za-z0-9_.~-]`. -/
def unreservedChar (c : Char) : Bool :=
  c.isAlphanum || c = '-' || c = '_' || c = '.' || c = '~'

/-- Upper-case hex digit of a value below 16. -/
def hexDigitUpper (n : Nat) : Char :=
  if n < 10 then Char.ofNat (48 + n) else Char.ofNat (55 + n)

/-- `urlencoding::encode` over byte-valued characters: unreserved
characters stay, everything else becomes `%HH`. -/
def encodePath : List Char → List Char
  | [] => []
  | c :: rest =>
    if unreservedChar c then c :: encodePath rest
    else '%' :: hexDigitUpper (c.toNat / 16 % 16) :: hexDigitUpper (c.toNat % 16)
      :: encodePath rest

/-- `impl Display for Address`: `host`, `host:port`, `:port`, or the
percent-encoded path.  The host/port-with-path combinations are
`unreachable!` in the source and print nothing here. -/
def Address.display (a : Address) : List Char :=
  match a.host, a.port, a.path with
  | some h, none, none => h
  | some h, some p, none => h ++ ':' :: natToDigits p
  | none, some p, none => ':' :: natToDigits p
  | none, none, some path => encodePath path
  | _, _, _ => []

/-- Interleave `sep` between the given pieces (`itertools::join`). -/
def joinChar (sep : Char) : List (List Char) → List Char
  | [] => []
  | [x] => x
  | x :: xs => x ++ sep :: joinChar sep xs

/-- Display piece: `+protocol` when present. -/
def protoPart : Option (List Char) → List Char
  | some p => '+' :: p
  | none => []

/-- Display piece: `user`, `user:pass` or `:pass` followed by `@`. -/
def userinfoPart : Option (List Char) → Option (List Char) → List Char
  | some u, some pw => u ++ ':' :: pw ++ ['@']
  | some u, none => u ++ ['@']
  | none, some pw => ':' :: pw ++ ['@']
  | none, none => []

/-- Display piece: the comma-joined addresses. -/
def addrsPart (addrs : List Address) : List Char :=
  joinChar ',' (addrs.map Address.display)

/-- Display piece: `/database` when present. -/
def dbPart : Option (List Char) → List Char
  | some db => '/' :: db
  | none => []

/-- Display piece: the fragment when present. -/
def fragPart : Option (List Char) → List Char
  | some f => f
  | none => []

/-- Display piece: `?k=v&…` over the sorted parameter map. -/
def paramsPart (params : List (List Char × List Char)) : List Char :=
  if params.isEmpty then []
  else '?' :: joinChar '&' (params.map (fun kv => kv.1 ++ '=' :: kv.2))

/-- `impl Display for Dsn`: driver, `+protocol`, `://`, userinfo,
comma-joined addresses, `/database`, fragment, and `?k=v&…` over the
sorted parameter map. -/
def Dsn.display (d : Dsn) : List Char :=
  d.driver
  ++ protoPart d.protocol
  ++ "://".data
  ++ userinfoPart d.username d.password
  ++ addrsPart d.addresses
  ++ dbPart d.database
  ++ fragPart d.fragment
  ++ paramsPart d.params

/-! ### Client builder (`TaosBuilder::from_dsn`, `src/taos-ws/src/lib.rs`) -/

/-- `WsAuth`: a cloud token or plain credentials. -/
inductive WsAuth where
  | token (t : List Char)
  | plain (user pass : List Char)
deriving DecidableEq, Repr

/-- `TaosBuilder { scheme, addr, auth, database }`. -/
structure TaosBuilder where
  scheme : List Char
  addr : List Char
  auth : WsAuth
  database : Option (List Char)
deriving DecidableEq, Repr

/-- The builder error: `DsnError::InvalidDriver(dsn.to_string())`. -/
inductive TaosBuilderError where
  | invalidDriver (rendered : List Char)
deriving DecidableEq, Repr

/-- The driver/protocol match of `TaosBuilder::from_dsn`:
`("ws" | "http", _)` and `("wss" | "https", _)` pick their scheme for any
protocol; `taos`/`taosws`/`tmq` follow a ws/wss-family protocol (or none);
everything else falls to the `Err(InvalidDriver)` arm (`none`). -/
def scheme_for (driver : List Char) (proto : Option (List Char)) :
    Option (List Char) :=
  if driver = "ws".data ∨ driver = "http".data then some "ws".data
  else if driver = "wss".data ∨ driver = "https".data then some "wss".data
  else if (driver = "taos".data ∨ driver = "taosws".data ∨ driver = "tmq".data) ∧
      (proto = some "ws".data ∨ proto = some "http".data ∨ proto = none) then
    some "ws".data
  else if (driver = "taos".data ∨ driver = "taosws".data ∨ driver = "tmq".data) ∧
      (proto = some "wss".data ∨ proto = some "https".data) then
    some "wss".data
  else none

/-- `TaosBuilder::from_dsn`: match the driver/protocol pair to a `ws` or
`wss` scheme (anything else is `InvalidDriver`), take the `token`
parameter, use the first address or default `localhost:6041`, and default
missing credentials to `root`/`taosdata`. -/
def TaosBuilder.from_dsn (dsn : Dsn) : Except TaosBuilderError TaosBuilder :=
  match scheme_for dsn.driver dsn.protocol with
  | none => .error (.invalidDriver dsn.display)
  | some scheme =>
    let token := List.lookup "token".data dsn.params
    let addr := match dsn.addresses.head? with
      | some a => a.display
      | none => "localhost:6041".data
    match token with
    | some t => .ok ⟨scheme, addr, .token t, dsn.database⟩
    | none => .ok ⟨scheme, addr,
        .plain (dsn.username.getD "root".data) (dsn.password.getD "taosdata".data),
        dsn.database⟩

/-! ### DSN parsing.

Modelled from the spec: the grammar file `dsn.pest` driving
`impl FromStr for Dsn` is not under `src/` (only the conversion loop is),
so the accepted language below follows the spec's grammar (§4.1) and its
tie-breaks:

```
dsn       := driver ("+" protocol)? "://" userinfo? endpoint? ("/" database)? params?
userinfo  := (username (":" password)?)? "@"
endpoint  := protocol "(" addresses ")" | addresses | fragment
address   := host (":" port)? | ":" port | "%"-encoded path
params    := "?" pair ("&" pair)*
```

A fragment is produced only when the endpoint cannot be parsed as an
address list; percent escapes are decoded only in a single-address path;
parameters live in a sorted map. -/

/-- Split a character list at the first occurrence of `c`. -/
def splitOnFirst (c : Char) : List Char → Option (List Char × List Char)
  | [] => none
  | x :: rest =>
    if x = c then some ([], rest)
    else (splitOnFirst c rest).map (fun p => (x :: p.1, p.2))

/-- Split a character list at every occurrence of `c`. -/
def splitAll (c : Char) : List Char → List (List Char)
  | [] => [[]]
  | x :: rest =>
    if x = c then [] :: splitAll c rest
    else
      match splitAll c rest with
      | [] => [[x]]
      | p :: ps => (x :: p) :: ps

/-- Split at the first `"://"`. -/
def splitSchemeSep : List Char → Option (List Char × List Char)
  | [] => none
  | x :: rest =>
    if x = ':' ∧ rest.take 2 = ['/', '/'] then some ([], rest.drop 2)
    else (splitSchemeSep rest).map (fun p => (x :: p.1, p.2))

/-- Characters allowed in a driver or protocol name. -/
def identChar (c : Char) : Bool := c.isAlphanum

/-- Characters allowed in a host name. -/
def hostChar (c : Char) : Bool := c.isAlphanum || c = '.' || c = '-'

/-- A valid host: nonempty, alphanumeric first character, host characters
throughout (so `.` or `./file.db` are not hosts). -/
def hostOk (s : List Char) : Bool :=
  match s with
  | [] => false
  | c :: _ => c.isAlphanum && s.all hostChar

/-- Characters allowed in a percent-encoded path token. -/
def pathChar (c : Char) : Bool := unreservedChar c || c = '%'

/-- Numeric value of decimal digits (`str::parse` accumulation). -/
def digitsToNat (ds : List Char) : Nat :=
  ds.foldl (fun acc c => acc * 10 + (c.toNat - 48)) 0

/-- Hexadecimal digit value. -/
def hexVal (c : Char) : Option Nat :=
  if c.isDigit then some (c.toNat - 48)
  else if 'A' ≤ c ∧ c ≤ 'F' then some (c.toNat - 55)
  else if 'a' ≤ c ∧ c ≤ 'f' then some (c.toNat - 87)
  else none

/-- `urlencoding::decode` over byte-valued characters: `%HH` becomes the
byte `HH`; a stray `%` stays literal. -/
def pctDecode : List Char → List Char
  | [] => []
  | c :: h1 :: h2 :: rest2 =>
    if c = '%' ∧ (hexVal h1).isSome ∧ (hexVal h2).isSome then
      Char.ofNat (16 * (hexVal h1).getD 0 + (hexVal h2).getD 0) :: pctDecode rest2
    else c :: pctDecode (h1 :: h2 :: rest2)
  | c :: rest => c :: pctDecode rest

/-- One `address` token: a `%`-bearing path-charactered token is a
percent-encoded path; otherwise `host`, `host:port` or `:port` with a
`u16` port. -/
def parseAddress (s : List Char) : Option Address :=
  if s.contains '%' then
    if s ≠ [] ∧ s.all pathChar then some ⟨none, none, some (pctDecode s)⟩
    else none
  else
    match splitOnFirst ':' s with
    | none => if hostOk s then some ⟨some s, none, none⟩ else none
    | some (h, p) =>
      if p ≠ [] ∧ p.all (fun c => c.isDigit) ∧ digitsToNat p < 65536 then
        if h = [] then some ⟨none, some (digitsToNat p), none⟩
        else if hostOk h then some ⟨some h, some (digitsToNat p), none⟩
        else none
      else none

/-- A comma-separated address list; the empty string is the empty list. -/
def parseAddresses (s : List Char) : Option (List Address) :=
  if s = [] then some []
  else (splitAll ',' s).mapM parseAddress

/-- A database name: nonempty with no `/`. -/
def dbOk (s : List Char) : Bool := !s.isEmpty && s.all (fun c => c ≠ '/')

/-- The inline-protocol endpoint `protocol "(" addresses ")" ("/" db)?`. -/
def tryInline (e : List Char) :
    Option (List Char × List Address × Option (List Char)) :=
  match splitOnFirst '(' e with
  | none => none
  | some (proto, rest) =>
    if proto ≠ [] ∧ proto.all identChar then
      match splitOnFirst ')' rest with
      | none => none
      | some (inner, tail) =>
        match parseAddresses inner with
        | none => none
        | some addrs =>
          match tail with
          | [] => some (proto, addrs, none)
          | t :: dbs =>
            if t = '/' then
              if dbs = [] then some (proto, addrs, none)
              else if dbOk dbs then some (proto, addrs, some dbs) else none
            else none
    else none

/-- The address-list endpoint with an optional `"/" database` suffix,
split at the first `/`. -/
def tryAddrsDb (e : List Char) : Option (List Address × Option (List Char)) :=
  match splitOnFirst '/' e with
  | none => (parseAddresses e).map (fun addrs => (addrs, none))
  | some (left, right) =>
    match parseAddresses left with
    | none => none
    | some addrs =>
      if right = [] then some (addrs, none)
      else if dbOk right then some (addrs, some right) else none

/-- Result of classifying the endpoint region. -/
inductive EndpointParse where
  | empty
  | inlineProto (proto : List Char) (addrs : List Address) (db : Option (List Char))
  | addrsDb (addrs : List Address) (db : Option (List Char))
  | frag (f : List Char)
deriving DecidableEq, Repr

/-- Endpoint tie-break: inline protocol first, then an address list with
optional database, and otherwise the whole region is a fragment. -/
def parseEndpoint (e : List Char) : EndpointParse :=
  if e = [] then .empty
  else
    match tryInline e with
    | some (proto, addrs, db) => .inlineProto proto addrs db
    | none =>
      match tryAddrsDb e with
      | some (addrs, db) => .addrsDb addrs db
      | none => .frag e

/-- The userinfo before an `@`: must be nonempty; an absent-before-colon
username stays `None`. -/
def parseUserinfo (u : List Char) :
    Option (Option (List Char) × Option (List Char)) :=
  if u = [] then none
  else
    match splitOnFirst ':' u with
    | none => some (some u, none)
    | some (user, pass) =>
      some ((if user = [] then none else some user), some pass)

/-- The `driver ("+" protocol)?` scheme. -/
def parseScheme (s : List Char) : Option (List Char × Option (List Char)) :=
  match splitOnFirst '+' s with
  | none => if s ≠ [] ∧ s.all identChar then some (s, none) else none
  | some (d, p) =>
    if d ≠ [] ∧ d.all identChar ∧ p ≠ [] ∧ p.all identChar then some (d, some p)
    else none

/-- Lexicographic order on character lists (the `BTreeMap` key order). -/
def charListLt : List Char → List Char → Bool
  | [], [] => false
  | [], _ :: _ => true
  | _ :: _, [] => false
  | a :: as, b :: bs => if a < b then true else if b < a then false else charListLt as bs

/-- `BTreeMap::insert` on the sorted association list. -/
def btreeInsert (k v : List Char) :
    List (List Char × List Char) → List (List Char × List Char)
  | [] => [(k, v)]
  | (k0, v0) :: rest =>
    if charListLt k k0 then (k, v) :: (k0, v0) :: rest
    else if k = k0 then (k, v) :: rest
    else (k0, v0) :: btreeInsert k v rest

/-- One `name "=" value` pair, split at the first `=`. -/
def parsePair (p : List Char) : Option (List Char × List Char) :=
  (splitOnFirst '=' p).map (fun kv => (kv.1, kv.2))

/-- The `pair ("&" pair)*` after `?` (which must be nonempty), folded
into the sorted map with later duplicates overriding. -/
def parseParams (s : List Char) : Option (List (List Char × List Char)) :=
  if s = [] then none
  else
    ((splitAll '&' s).mapM parsePair).map
      (fun ps => ps.foldl (fun m kv => btreeInsert kv.1 kv.2 m) [])

/-- Build the final `Dsn` from a classified endpoint and the other
already-parsed pieces.  An inline protocol overwrites the scheme
protocol, as the conversion loop's later `Rule::protocol` assignment
does. -/
def endpointAssemble (driver : List Char)
    (protocol0 username password : Option (List Char))
    (params : List (List Char × List Char)) : EndpointParse → Option Dsn
  | .empty => some ⟨driver, protocol0, username, password, [], none, none, params⟩
  | .inlineProto proto addrs db =>
    some ⟨driver, some proto, username, password, addrs, none, db, params⟩
  | .addrsDb addrs db =>
    some ⟨driver, protocol0, username, password, addrs, none, db, params⟩
  | .frag f => some ⟨driver, protocol0, username, password, [], some f, none, params⟩

/-- The part of the DSN reader after the scheme and parameters are
removed: the userinfo at the first `@`, then the endpoint classes. -/
def parseDsnBody (driver : List Char) (protocol0 : Option (List Char))
    (params : List (List Char × List Char)) (body : List Char) : Option Dsn := do
  let (userinfo, endpointStr) := match splitOnFirst '@' body with
    | none => (none, body)
    | some (u, e) => (some u, e)
  let (username, password) ← match userinfo with
    | none => pure ((none : Option (List Char)), (none : Option (List Char)))
    | some u => parseUserinfo u
  endpointAssemble driver protocol0 username password params
    (parseEndpoint endpointStr)

/-- The DSN reader after the scheme: split the parameters off at the
first `?`, then read the body. -/
def parseDsnRest (driver : List Char) (protocol0 : Option (List Char))
    (rest : List Char) : Option Dsn := do
  let (body, paramsStr) := match splitOnFirst '?' rest with
    | none => (rest, none)
    | some (b, ps) => (b, some ps)
  let params ← match paramsStr with
    | none => pure []
    | some ps => parseParams ps
  parseDsnBody driver protocol0 params body

/-- The DSN reader: split the scheme at `"://"`, then read the rest. -/
def parseDsn (s : List Char) : Option Dsn := do
  let (schemeStr, rest) ← splitSchemeSep s
  let (driver, protocol0) ← parseScheme schemeStr
  parseDsnRest driver protocol0 rest

/-- A path re-parses as a path only when its encoding keeps a `%`, i.e.
the decoded path has a character outside `[A-Za-z0-9_.~-]`; host/port
addresses are always stable. -/
def Address.stablePath (a : Address) : Bool :=
  match a.path with
  | some p => p.any (fun c => !(unreservedChar c))
  | none => true

/-- Shape invariant of a parsed `Address`: path and host/port never
co-occur, hosts pass `hostOk`, ports fit `u16`, decoded paths are
nonempty byte strings. -/
def AddressWF (a : Address) : Prop :=
  match a.host, a.port, a.path with
  | some h, none, none => hostOk h = true
  | some h, some p, none => hostOk h = true ∧ p < 65536
  | none, some p, none => p < 65536
  | none, none, some pa => pa ≠ [] ∧ ∀ c ∈ pa, c.toNat < 256
  | _, _, _ => False

/-- Invariant of every parser-produced `Dsn`: character-set facts on each
component, the path/host exclusivity, the fragment's failure to re-parse
as an endpoint, and sortedness of the parameter map. -/
def DsnWF (d : Dsn) : Prop :=
  (d.driver ≠ [] ∧ d.driver.all identChar = true) ∧
  (∀ p, d.protocol = some p → p ≠ [] ∧ p.all identChar = true) ∧
  (∀ u, d.username = some u → u ≠ [] ∧ ':' ∉ u ∧ '@' ∉ u ∧ '?' ∉ u) ∧
  (∀ pw, d.password = some pw → '@' ∉ pw ∧ '?' ∉ pw) ∧
  (∀ a ∈ d.addresses, AddressWF a) ∧
  (∀ db, d.database = some db → dbOk db = true ∧ '?' ∉ db ∧
    (d.username = none → d.password = none → '@' ∉ db)) ∧
  (∀ f, d.fragment = some f → f ≠ [] ∧ '?' ∉ f ∧ d.addresses = [] ∧
    d.database = none ∧ (d.username = none → d.password = none → '@' ∉ f) ∧
    tryInline f = none ∧ tryAddrsDb f = none) ∧
  (List.Pairwise (fun x y => charListLt x.1 y.1 = true) d.params ∧
    ∀ kv ∈ d.params, '&' ∉ kv.1 ∧ '=' ∉ kv.1 ∧ '&' ∉ kv.2)

/-! ## Theorems -/

theorem bitget_eq_testBit (x k : Nat) : ((x >>> k) &&& 1 == 1) = x.testBit k := by
  simp [Nat.testBit, Nat.and_comm]

theorem is_null_eq_testBit (l : List Nat) (r : Nat) :
    is_null_unchecked l r = (l.getD (r / 8) 0).testBit (7 - r % 8) := by
  unfold is_null_unchecked
  rw [bitget_eq_testBit]
  have h1 : r >>> 3 = r / 8 := Nat.shiftRight_eq_div_pow r 3
  have h2 : r &&& 7 = r % 8 := Nat.and_pow_two_sub_one_eq_mod r 3
  rw [h1, h2]

theorem set_null_length (l : List Nat) (i : Nat) :
    (set_null_unchecked l i).length = l.length := by
  simp [set_null_unchecked]

theorem getD_set_ne (l : List Nat) (a b v : Nat) (h : a ≠ b) :
    (l.set a v).getD b 0 = l.getD b 0 := by
  simp [List.getD, List.getElem?_set_ne h]

theorem getD_set_self (l : List Nat) (a v : Nat) (h : a < l.length) :
    (l.set a v).getD a 0 = v := by
  simp [List.getD, List.getElem?_set_self, h]

theorem div8_mod8_inj {i j : Nat} (hd : i / 8 = j / 8) (hm : i % 8 = j % 8) : i = j := by
  omega

theorem is_null_set_self (l : List Nat) (i : Nat) (h : i >>> 3 < l.length) :
    is_null_unchecked (set_null_unchecked l i) i = true := by
  unfold is_null_unchecked set_null_unchecked
  rw [bitget_eq_testBit, getD_set_self _ _ _ h]
  have : (1 : Nat) <<< (7 - (i &&& 7)) = 2 ^ (7 - (i &&& 7)) := by
    simp [Nat.shiftLeft_eq]
  rw [this, Nat.testBit_or]
  simp [Nat.testBit_two_pow]

theorem is_null_set_ne (l : List Nat) (i j : Nat) (hne : i ≠ j) :
    is_null_unchecked (set_null_unchecked l i) j = is_null_unchecked l j := by
  have hi3 : i >>> 3 = i / 8 := Nat.shiftRight_eq_div_pow i 3
  have hj3 : j >>> 3 = j / 8 := Nat.shiftRight_eq_div_pow j 3
  have him : i &&& 7 = i % 8 := Nat.and_pow_two_sub_one_eq_mod i 3
  have hjm : j &&& 7 = j % 8 := Nat.and_pow_two_sub_one_eq_mod j 3
  by_cases hb : i / 8 = j / 8
  · -- same byte, different bit position
    have hm : i % 8 ≠ j % 8 := fun hm => hne (div8_mod8_inj hb hm)
    unfold is_null_unchecked set_null_unchecked
    rw [bitget_eq_testBit, bitget_eq_testBit, hi3, hj3, him, hjm, hb]
    by_cases hlen : j / 8 < l.length
    · rw [getD_set_self _ _ _ hlen]
      have hsh : (1 : Nat) <<< (7 - i % 8) = 2 ^ (7 - i % 8) := by
        simp [Nat.shiftLeft_eq]
      rw [hsh, Nat.testBit_or]
      have hpos : 7 - i % 8 ≠ 7 - j % 8 := by omega
      simp [Nat.testBit_two_pow, hpos]
    · rw [List.set_eq_of_length_le (by omega)]
  · -- different byte: the set does not touch byte j / 8
    unfold is_null_unchecked set_null_unchecked
    rw [bitget_eq_testBit, bitget_eq_testBit, hi3, hj3, him, hjm,
      getD_set_ne _ _ _ _ hb]

theorem from_bools_aux_length (bs : List Bool) :
    ∀ (l : List Nat) (i : Nat), (from_bools_aux l i bs).length = l.length := by
  induction bs with
  | nil => intro l i; rfl
  | cons b rest ih =>
    intro l i
    unfold from_bools_aux
    rw [ih]
    by_cases hb : b <;> simp [hb, set_null_length]

theorem from_bools_aux_lower (bs : List Bool) :
    ∀ (l : List Nat) (i j : Nat), j < i →
      is_null_unchecked (from_bools_aux l i bs) j = is_null_unchecked l j := by
  induction bs with
  | nil => intro l i j _; rfl
  | cons b rest ih =>
    intro l i j hj
    unfold from_bools_aux
    rw [ih _ _ _ (by omega)]
    by_cases hb : b <;> simp [hb, is_null_set_ne _ _ _ (by omega : i ≠ j)]

theorem from_bools_aux_get (bs : List Bool) :
    ∀ (l : List Nat) (i k : Nat), k < bs.length → (i + k) >>> 3 < l.length →
      is_null_unchecked l (i + k) = false →
      is_null_unchecked (from_bools_aux l i bs) (i + k) = bs.getD k false := by
  induction bs with
  | nil => intro l i k hk _ _; exact absurd hk (by simp)
  | cons b rest ih =>
    intro l i k hk hbound hzero
    match k with
    | 0 =>
      unfold from_bools_aux
      rw [from_bools_aux_lower _ _ _ _ (by omega)]
      by_cases hb : b
      · simpa [hb] using is_null_set_self l i (by simpa using hbound)
      · simpa [hb] using hzero
    | k + 1 =>
      unfold from_bools_aux
      have harith : i + (k + 1) = (i + 1) + k := by omega
      rw [harith]
      have hlen : ((i + 1) + k) >>> 3 <
          (if b then set_null_unchecked l i else l).length := by
        by_cases hb : b <;> simp [hb, set_null_length] <;> rw [← harith] <;> exact hbound
      have hz : is_null_unchecked (if b then set_null_unchecked l i else l)
          ((i + 1) + k) = false := by
        by_cases hb : b <;>
          simp [hb, is_null_set_ne _ _ _ (by omega : i ≠ (i + 1) + k)] <;>
          rw [← harith] <;> exact hzero
      simpa using ih _ (i + 1) k (by simpa using hk) hlen hz

theorem is_null_new (n i : Nat) : is_null_unchecked (NullsMut.new n) i = false := by
  unfold is_null_unchecked NullsMut.new
  have : (List.replicate (null_bits_len n) (0 : Nat)).getD (i >>> 3) 0 = 0 := by
    by_cases h : i >>> 3 < null_bits_len n
    · simp [List.getD, List.getElem?_replicate, h]
    · simp [List.getD, List.getElem?_replicate, h]
  rw [this]
  simp [Nat.shiftRight_eq_div_pow]

theorem from_bools_is_null (bs : List Bool) (i : Nat) (h : i < bs.length) :
    is_null_unchecked (from_bools bs) i = bs.getD i false := by
  unfold from_bools
  have hbound : (0 + i) >>> 3 < (NullsMut.new bs.length).length := by
    have h3 : (0 + i) >>> 3 = i / 8 := by
      rw [Nat.shiftRight_eq_div_pow]; omega
    rw [h3]
    simp only [NullsMut.new, List.length_replicate, null_bits_len]
    omega
  have := from_bools_aux_get bs (NullsMut.new bs.length) 0 i h hbound
    (is_null_new bs.length (0 + i))
  simpa using this

/-- C2: for every boolean sequence `bs` and index `i < len bs`, the bitmap
built by `from_bools bs` reports `is_null i = bs[i]`; and the bit consulted
for row `r` is bit `7 - (r mod 8)` of byte `r / 8` of the bitmap bytes. -/
theorem claim_C2_bitmap_from_bools :
    (∀ (bs : List Bool) (i : Nat), i < bs.length →
      is_null_unchecked (from_bools bs) i = bs.getD i false) ∧
    (∀ (l : List Nat) (r : Nat),
      is_null_unchecked l r = (l.getD (r / 8) 0).testBit (7 - r % 8)) :=
  ⟨from_bools_is_null, is_null_eq_testBit⟩

/-- Witness for C2 at the concrete sequence `[true, false, true]`. -/
theorem claim_C2_witness :
    is_null_unchecked (from_bools [true, false, true]) 2 = true ∧
    is_null_unchecked (from_bools [true, false, true]) 1 = false :=
  ⟨(claim_C2_bitmap_from_bools.1 [true, false, true] 2 (by decide)).trans (by decide),
   (claim_C2_bitmap_from_bools.1 [true, false, true] 1 (by decide)).trans (by decide)⟩

theorem getD_map_range {α : Type} (f : Nat → α) (n r : Nat) (d : α) (h : r < n) :
    ((List.range n).map f).getD r d = f r := by
  simp [List.getD, List.getElem?_map, List.getElem?_range, h]

theorem getD_map {α β : Type} (f : α → β) (l : List α) (r : Nat) (d : β) (d0 : α)
    (h : r < l.length) : (l.map f).getD r d = f (l.getD r d0) := by
  simp [List.getD, List.getElem?_map, List.getElem?_eq_getElem h]

theorem leUint_lt (e : List Nat) (h : ∀ b ∈ e, b < 256) :
    leUint e < 256 ^ e.length := by
  induction e with
  | nil => simp [leUint]
  | cons b rest ih =>
    have hb : b < 256 := h b (by simp)
    have hr := ih (fun x hx => h x (by simp [hx]))
    simp only [leUint, List.length_cons, pow_succ]
    calc b + 256 * leUint rest < 256 + 256 * leUint rest := by omega
    _ = 256 * (leUint rest + 1) := by ring
    _ ≤ 256 * 256 ^ rest.length := by
        exact Nat.mul_le_mul_left 256 (by omega)
    _ = 256 ^ rest.length * 256 := by ring

theorem leUint_lePad (e : List Nat) (h : ∀ b ∈ e, b < 256) (n : Nat)
    (hn : n < 256 ^ e.length) : leUint e = n ↔ e = lePad e.length n := by
  induction e generalizing n with
  | nil =>
    simp only [List.length_nil, pow_zero] at hn
    interval_cases n
    simp [leUint, lePad]
  | cons b rest ih =>
    have hb : b < 256 := h b (by simp)
    constructor
    · intro he
      have hbn : b = n % 256 := by
        have : leUint (b :: rest) % 256 = b % 256 := by
          simp [leUint, Nat.add_mul_mod_self_left]
        rw [he] at this
        omega
      have hrn : leUint rest = n / 256 := by
        simp only [leUint] at he
        omega
      have hdiv : n / 256 < 256 ^ rest.length := by
        simp only [List.length_cons, pow_succ] at hn
        exact (Nat.div_lt_iff_lt_mul (by omega)).mpr hn
      have := (ih (fun x hx => h x (by simp [hx])) (n / 256) hdiv).mp hrn
      simp [lePad, ← hbn, ← this]
    · intro he
      have h1 : b = n % 256 := by
        have := congrArg (fun l => l.headD 0) he
        simpa [lePad] using this
      have h2 : rest = lePad rest.length (n / 256) := by
        have := congrArg List.tail he
        simpa [lePad] using this
      have hdiv : n / 256 < 256 ^ rest.length := by
        simp only [List.length_cons, pow_succ] at hn
        exact (Nat.div_lt_iff_lt_mul (by omega)).mpr hn
      have := (ih (fun x hx => h x (by simp [hx])) (n / 256) hdiv).mpr h2
      simp only [leUint, this, h1]
      omega

theorem byteSlice_sublist (bytes : List Nat) (start len : Nat) :
    (byteSlice bytes start len).Sublist bytes :=
  (List.take_sublist _ _).trans (List.drop_sublist _ _)

theorem byteSlice_length (bytes : List Nat) (start len : Nat)
    (h : start + len ≤ bytes.length) : (byteSlice bytes start len).length = len := by
  simp [byteSlice]
  omega

theorem elemBytes_length (data : List Nat) (size rows r : Nat)
    (hlen : data.length = rows * size) (hr : r < rows) :
    (elemBytes data size r).length = size := by
  apply byteSlice_length
  have : (r + 1) * size ≤ rows * size := Nat.mul_le_mul_right size (by omega)
  calc r * size + size = (r + 1) * size := by ring
  _ ≤ rows * size := this
  _ = data.length := hlen.symm

theorem v2_fixed_nulls_is_null (data : List Nat) (size pattern rows r : Nat)
    (hr : r < rows) :
    is_null_unchecked (v2_fixed_nulls data size pattern rows) r =
      (leUint (elemBytes data size r) == pattern) := by
  unfold v2_fixed_nulls
  rw [from_bools_is_null _ r (by simp [hr])]
  rw [getD_map_range _ _ _ _ hr]

theorem leUint_single (data : List Nat) (r : Nat) (h : r < data.length) :
    leUint (elemBytes data 1 r) = data.getD r 0 := by
  unfold elemBytes byteSlice
  rw [show r * 1 = r by ring]
  induction data generalizing r with
  | nil => simp at h
  | cons d rest ih =>
    match r with
    | 0 => simp [leUint, List.getD]
    | r + 1 =>
      simp only [List.drop_succ_cons]
      rw [ih r (by simpa using h)]
      simp [List.getD]

theorem v2_bool_nulls_is_null (data : List Nat) (rows r : Nat)
    (hlen : data.length = rows) (hr : r < rows) :
    is_null_unchecked (v2_bool_nulls data) r =
      (leUint (elemBytes data 1 r) == 2) := by
  unfold v2_bool_nulls
  rw [from_bools_is_null _ r (by simp [hlen, hr])]
  rw [getD_map _ _ _ _ 0 (by omega)]
  rw [leUint_single data r (by omega)]

/-- Every fixed-width view built by the v2 column walk has a data slice of
exactly `rows * size` buffer bytes and a sentinel-derived null bitmap. -/
theorem parse_v2_cols_fixed_ok (bytes : List Nat) (rows : Nat) (prec : Precision) :
    ∀ (fields : List (Ty × Nat)) (offset : Nat) (views : List ColumnView) (fin : Nat),
      parse_v2_cols bytes rows prec fields offset = some (views, fin) →
      ∀ cv ∈ views, ∀ t nulls data, cv.fixed_data = some (t, nulls, data) →
        ∀ size pattern, t.fixedInfo = some (size, pattern) →
          data.length = rows * size ∧ data.Sublist bytes ∧
          ∀ r, r < rows →
            is_null_unchecked nulls r = (leUint (elemBytes data size r) == pattern) := by
  intro fields
  induction fields with
  | nil =>
    intro offset views fin h cv hcv
    simp only [parse_v2_cols, Option.some.injEq, Prod.mk.injEq] at h
    rw [← h.1] at hcv
    simp at hcv
  | cons fl rest ih =>
    obtain ⟨ty, length⟩ := fl
    intro offset views fin h cv hcv t nulls data hfd size pattern hinfo
    rw [parse_v2_cols] at h
    cases hstep : v2_col_step bytes rows prec ty length offset with
    | none => rw [hstep] at h; exact absurd h (by simp)
    | some p =>
      obtain ⟨cv0, newOff⟩ := p
      rw [hstep] at h
      dsimp only at h
      cases hrest : parse_v2_cols bytes rows prec rest newOff with
      | none => rw [hrest] at h; exact absurd h (by simp)
      | some q =>
        obtain ⟨cols, fin'⟩ := q
        rw [hrest] at h
        simp only [Option.some.injEq, Prod.mk.injEq] at h
        obtain ⟨hviews, _⟩ := h
        rw [← hviews] at hcv
        rcases List.mem_cons.mp hcv with hhead | htail
        · -- cv is the column built by this step
          subst hhead
          -- analyse the step per type
          cases ty <;> simp only [v2_col_step] at hstep
          case null => exact absurd hstep (by simp)
          case bool =>
            by_cases hle : offset + rows ≤ bytes.length
            · simp only [hle, if_true, Option.some.injEq, Prod.mk.injEq] at hstep
              rw [← hstep.1] at hfd
              simp only [ColumnView.fixed_data, Option.some.injEq,
                Prod.mk.injEq] at hfd
              obtain ⟨ht, hn, hdata⟩ := hfd
              rw [← ht] at hinfo
              simp only [Ty.fixedInfo, Option.some.injEq, Prod.mk.injEq] at hinfo
              obtain ⟨hsize, hpat⟩ := hinfo
              have hdl0 : (byteSlice bytes offset rows).length = rows :=
                byteSlice_length _ _ _ hle
              refine ⟨by rw [← hdata, hdl0, ← hsize]; ring, ?_, ?_⟩
              · rw [← hdata]; exact byteSlice_sublist _ _ _
              · intro r hr
                rw [← hn, ← hdata, ← hsize, ← hpat]
                exact v2_bool_nulls_is_null _ rows r hdl0 hr
            · simp [hle] at hstep
          case timestamp =>
            by_cases hle : offset + rows * 8 ≤ bytes.length
            · simp only [hle, if_true, Option.some.injEq, Prod.mk.injEq] at hstep
              rw [← hstep.1] at hfd
              simp only [ColumnView.fixed_data, Option.some.injEq,
                Prod.mk.injEq] at hfd
              obtain ⟨ht, hn, hdata⟩ := hfd
              rw [← ht] at hinfo
              simp only [Ty.fixedInfo, Option.some.injEq, Prod.mk.injEq] at hinfo
              obtain ⟨hsize, hpat⟩ := hinfo
              have hdl0 : (byteSlice bytes offset (rows * 8)).length = rows * 8 :=
                byteSlice_length _ _ _ hle
              refine ⟨by rw [← hdata, hdl0, ← hsize], ?_, ?_⟩
              · rw [← hdata]; exact byteSlice_sublist _ _ _
              · intro r hr
                rw [← hn, ← hdata, ← hsize, ← hpat]
                exact v2_fixed_nulls_is_null _ 8 _ rows r hr
            · simp [hle] at hstep
          case varChar =>
            by_cases hle : offset + length * rows ≤ bytes.length
            · simp only [hle, if_true, Option.some.injEq, Prod.mk.injEq] at hstep
              rw [← hstep.1] at hfd
              exact absurd hfd (by simp [ColumnView.fixed_data])
            · simp [hle] at hstep
          case nChar =>
            by_cases hle : offset + length * rows ≤ bytes.length
            · simp only [hle, if_true, Option.some.injEq, Prod.mk.injEq] at hstep
              rw [← hstep.1] at hfd
              exact absurd hfd (by simp [ColumnView.fixed_data])
            · simp [hle] at hstep
          case json =>
            by_cases hle : offset + length * rows ≤ bytes.length
            · simp only [hle, if_true, Option.some.injEq, Prod.mk.injEq] at hstep
              rw [← hstep.1] at hfd
              exact absurd hfd (by simp [ColumnView.fixed_data])
            · simp [hle] at hstep
          case varBinary => exact absurd hstep (by simp)
          case decimal => exact absurd hstep (by simp)
          case blob => exact absurd hstep (by simp)
          case mediumBlob => exact absurd hstep (by simp)
          all_goals {
            -- remaining: the ten `v2_fixed_step` numeric types
            unfold v2_fixed_step at hstep
            dsimp only at hstep
            split at hstep
            · rename_i hle
              simp only [Option.some.injEq, Prod.mk.injEq] at hstep
              rw [← hstep.1] at hfd
              simp only [ColumnView.fixed_data, Option.some.injEq,
                Prod.mk.injEq] at hfd
              obtain ⟨ht, hn, hdata⟩ := hfd
              rw [← ht] at hinfo
              simp only [Ty.fixedInfo, Option.some.injEq, Prod.mk.injEq] at hinfo
              obtain ⟨hsize, hpat⟩ := hinfo
              have hdl0 := byteSlice_length _ _ _ hle
              refine ⟨by rw [← hdata, hdl0, ← hsize], ?_, ?_⟩
              · rw [← hdata]; exact byteSlice_sublist _ _ _
              · intro r hr
                rw [← hn, ← hdata, ← hsize, ← hpat]
                exact v2_fixed_nulls_is_null _ _ _ rows r hr
            · exact absurd hstep (by simp)
          }
        · exact ih newOff cols fin' hrest cv htail t nulls data hfd size pattern hinfo

theorem fixedInfo_pattern_lt (t : Ty) (size pattern : Nat)
    (h : t.fixedInfo = some (size, pattern)) : pattern < 256 ^ size := by
  cases t <;> simp only [Ty.fixedInfo, Option.some.injEq, Prod.mk.injEq,
    reduceCtorEq] at h
  all_goals {
    obtain ⟨hs, hp⟩ := h
    subst hs
    subst hp
    decide
  }

/-- C1: in every v2-decoded block, a fixed-width element is marked null in
the generated bitmap exactly when its little-endian bytes equal the
type-specific sentinel pattern (Bool `0x02`, TinyInt `0x80`, SmallInt
`0x8000`, Int `0x80000000`, BigInt/Timestamp `0x8000000000000000`,
UTinyInt `0xFF`, USmallInt `0xFFFF`, UInt `0xFFFFFFFF`, UBigInt
`0xFFFFFFFFFFFFFFFF`, Float `0x7FF00000`, Double `0x7FFFFF0000000000`). -/
theorem claim_C1_v2_sentinel_nulls
    (bytes : List Nat) (fields : List (Ty × Nat)) (rows : Nat) (prec : Precision)
    (views : List ColumnView) (i : Nat) (cv : ColumnView)
    (t : Ty) (nulls data : List Nat) (size pattern : Nat) (r : Nat)
    (hparse : parse_from_raw_block_v2 bytes fields rows prec = some views)
    (hcv : views[i]? = some cv)
    (hfd : cv.fixed_data = some (t, nulls, data))
    (hinfo : t.fixedInfo = some (size, pattern))
    (hr : r < rows)
    (h8 : ∀ b ∈ bytes, b < 256) :
    is_null_unchecked nulls r = true ↔ elemBytes data size r = lePad size pattern := by
  unfold parse_from_raw_block_v2 at hparse
  cases hp : parse_v2_cols bytes rows prec fields 0 with
  | none => rw [hp] at hparse; exact absurd hparse (by simp)
  | some q =>
    obtain ⟨views', fin⟩ := q
    rw [hp] at hparse
    simp only [Option.map_some', Option.some.injEq] at hparse
    rw [← hparse] at hcv
    have hmem : cv ∈ views' := List.getElem?_mem hcv
    obtain ⟨hdl, hsub, hnull⟩ := parse_v2_cols_fixed_ok bytes rows prec fields 0
      views' fin hp cv hmem t nulls data hfd size pattern hinfo
    rw [hnull r hr]
    have helen : (elemBytes data size r).length = size :=
      elemBytes_length data size rows r hdl hr
    have he8 : ∀ b ∈ elemBytes data size r, b < 256 := by
      intro b hb
      exact h8 b (hsub.subset ((byteSlice_sublist data _ _).subset hb))
    have hpat : pattern < 256 ^ size := fixedInfo_pattern_lt t size pattern hinfo
    have := leUint_lePad (elemBytes data size r) he8 pattern (by rw [helen]; exact hpat)
    rw [helen] at this
    constructor
    · intro hx
      exact this.mp (by simpa using hx)
    · intro hx
      simpa using this.mpr hx

/-- C9: a `TimestampView` reports `is_null = false` (not `true`) for every
row at or beyond `len()` while `get` yields `None` there; for in-range
rows, `get` yields `None` exactly when the bitmap marks the row and
otherwise a timestamp carrying the view's precision. -/
theorem claim_C9_timestamp_view_bounds (v : TimestampView) (row : Nat) :
    (v.len ≤ row → v.is_null row = false ∧ v.get row = none) ∧
    (row < v.len → v.get row =
      if is_null_unchecked v.nulls row then none
      else some ⟨leI64 (elemBytes v.data 8 row), v.precision⟩) := by
  constructor
  · intro h
    have hnot : ¬ row < v.len := by omega
    unfold TimestampView.is_null TimestampView.get
    simp [hnot]
  · intro h
    unfold TimestampView.get TimestampView.get_unchecked
    simp only [h, if_true]

/-- Witness for C9 on a two-row microsecond view whose first row is null. -/
theorem claim_C9_witness :
    (TimestampView.mk [0x80] [5, 0, 0, 0, 0, 0, 0, 0, 7, 0, 0, 0, 0, 0, 0, 0]
      .microsecond).is_null 5 = false ∧
    (TimestampView.mk [0x80] [5, 0, 0, 0, 0, 0, 0, 0, 7, 0, 0, 0, 0, 0, 0, 0]
      .microsecond).get 5 = none ∧
    (TimestampView.mk [0x80] [5, 0, 0, 0, 0, 0, 0, 0, 7, 0, 0, 0, 0, 0, 0, 0]
      .microsecond).get 1 = some (TimestampValue.mk 7 .microsecond) := by
  refine ⟨((claim_C9_timestamp_view_bounds _ 5).1 (by decide)).1,
    ((claim_C9_timestamp_view_bounds _ 5).1 (by decide)).2,
    ((claim_C9_timestamp_view_bounds
      (TimestampView.mk [0x80] [5, 0, 0, 0, 0, 0, 0, 0, 7, 0, 0, 0, 0, 0, 0, 0]
        .microsecond) 1).2 (by decide)).trans (by decide)⟩

/-- C8: at the block surface, every out-of-range `(row, col)` access has
`is_null = true` and `get_ref = None`; the guard returns before any
unchecked column accessor is consulted. -/
theorem claim_C8_out_of_range (m : RawData) (row col : Nat)
    (h : m.nrows ≤ row ∨ m.ncols ≤ col) :
    m.is_null row col = true ∧ m.get_ref row col = none := by
  unfold RawData.is_null RawData.get_ref
  simp [h]

/-- Witness for C8 on a one-row block with no columns. -/
theorem claim_C8_witness :
    (RawData.mk 1 .millisecond 0 []).is_null 0 0 = true ∧
    (RawData.mk 1 .millisecond 0 []).get_ref 0 0 = none :=
  claim_C8_out_of_range (RawData.mk 1 .millisecond 0 []) 0 0 (Or.inr (by decide))

theorem lePad_length (k : Nat) : ∀ n : Nat, (lePad k n).length = k := by
  induction k with
  | zero => intro n; rfl
  | succ k ih => intro n; simp [lePad, ih]

theorem leUint_lePad_mod (k : Nat) : ∀ n : Nat, leUint (lePad k n) = n % 256 ^ k := by
  induction k with
  | zero => intro n; simp [lePad, leUint, Nat.mod_one]
  | succ k ih =>
    intro n
    simp only [lePad, leUint, ih]
    rw [pow_succ', Nat.mod_mul]

theorem byteSlice_congr (bytes bytes' : List Nat) (s l : Nat) (hs : 4 ≤ s)
    (hdrop : bytes.drop 4 = bytes'.drop 4) :
    byteSlice bytes s l = byteSlice bytes' s l := by
  unfold byteSlice
  have h1 : (bytes.drop 4).drop (s - 4) = bytes.drop s := by
    rw [List.drop_drop]
    congr 1
    omega
  have h2 : (bytes'.drop 4).drop (s - 4) = bytes'.drop s := by
    rw [List.drop_drop]
    congr 1
    omega
  rw [← h1, ← h2, hdrop]

theorem v3_offsets_congr (bytes bytes' : List Nat) (offset rows : Nat)
    (hs : 4 ≤ offset) (hdrop : bytes.drop 4 = bytes'.drop 4) :
    v3_offsets bytes offset rows = v3_offsets bytes' offset rows := by
  unfold v3_offsets
  apply List.map_congr_left
  intro r _
  rw [byteSlice_congr bytes bytes' _ _ (by omega) hdrop]

theorem v3_fixed_step_congr (bytes bytes' : List Nat) (rows offset size : Nat)
    (ty : Ty) (hs : 4 ≤ offset) (hlen : bytes.length = bytes'.length)
    (hdrop : bytes.drop 4 = bytes'.drop 4) :
    v3_fixed_step bytes rows offset size ty =
      v3_fixed_step bytes' rows offset size ty := by
  unfold v3_fixed_step
  dsimp only
  rw [hlen, byteSlice_congr bytes bytes' offset _ (by omega) hdrop,
    byteSlice_congr bytes bytes' (offset + ((rows + 7) >>> 3)) _ (by omega) hdrop]

theorem v3_var_step_congr (bytes bytes' : List Nat) (rows offset length : Nat)
    (mk : List Int → List Nat → ColumnView) (hs : 4 ≤ offset)
    (hlen : bytes.length = bytes'.length)
    (hdrop : bytes.drop 4 = bytes'.drop 4) :
    v3_var_step bytes rows offset length mk =
      v3_var_step bytes' rows offset length mk := by
  unfold v3_var_step
  dsimp only
  rw [hlen, v3_offsets_congr bytes bytes' offset rows (by omega) hdrop,
    byteSlice_congr bytes bytes' (offset + 4 * rows) _ (by omega) hdrop]

theorem v3_col_step_congr (bytes bytes' : List Nat) (rows : Nat)
    (prec : Precision) (ty : Ty) (length offset : Nat) (hs : 4 ≤ offset)
    (hlen : bytes.length = bytes'.length)
    (hdrop : bytes.drop 4 = bytes'.drop 4) :
    v3_col_step bytes rows prec ty length offset =
      v3_col_step bytes' rows prec ty length offset := by
  cases ty <;> simp only [v3_col_step]
  case timestamp =>
    rw [hlen, byteSlice_congr bytes bytes' offset _ (by omega) hdrop,
      byteSlice_congr bytes bytes' (offset + ((rows + 7) >>> 3)) _ (by omega) hdrop]
  all_goals first
    | rfl
    | exact v3_fixed_step_congr bytes bytes' rows offset _ _ hs hlen hdrop
    | exact v3_var_step_congr bytes bytes' rows offset length _ hs hlen hdrop

theorem v3_col_step_newOff_ge (bytes : List Nat) (rows : Nat) (prec : Precision)
    (ty : Ty) (length offset : Nat) (cv : ColumnView) (newOff : Nat)
    (h : v3_col_step bytes rows prec ty length offset = some (cv, newOff)) :
    offset ≤ newOff := by
  cases ty <;>
    simp only [v3_col_step, v3_fixed_step, v3_var_step,
      Option.ite_none_right_eq_some, Option.some.injEq, Prod.mk.injEq] at h <;>
    first
      | omega
      | exact absurd h (by simp)

theorem parse_v3_cols_congr (bytes bytes' : List Nat) (rows : Nat)
    (prec : Precision) (hlen : bytes.length = bytes'.length)
    (hdrop : bytes.drop 4 = bytes'.drop 4) :
    ∀ (list : List (ColSchema × Nat)) (offset : Nat), 4 ≤ offset →
      parse_v3_cols bytes rows prec list offset =
        parse_v3_cols bytes' rows prec list offset := by
  intro list
  induction list with
  | nil => intro offset _; rfl
  | cons e rest ih =>
    obtain ⟨schema, length⟩ := e
    intro offset hs
    simp only [parse_v3_cols]
    rw [v3_col_step_congr bytes bytes' rows prec schema.ty length offset hs hlen hdrop]
    cases hstep : v3_col_step bytes' rows prec schema.ty length offset with
    | none => rfl
    | some p =>
      obtain ⟨cv, newOff⟩ := p
      have hge := v3_col_step_newOff_ge bytes' rows prec schema.ty length offset
        cv newOff hstep
      dsimp only
      rw [ih newOff (by omega)]

theorem mapM_option_congr {α β : Type} (l : List α) (f g : α → Option β)
    (h : ∀ a ∈ l, f a = g a) : l.mapM f = l.mapM g := by
  induction l with
  | nil => rfl
  | cons a rest ih =>
    rw [List.mapM_cons, List.mapM_cons, h a (by simp),
      ih (fun x hx => h x (by simp [hx]))]

theorem v3_schemas_congr (bytes bytes' : List Nat) (cols : Nat)
    (hdrop : bytes.drop 4 = bytes'.drop 4) :
    v3_schemas bytes cols = v3_schemas bytes' cols := by
  unfold v3_schemas
  apply mapM_option_congr
  intro i _
  rw [byteSlice_congr bytes bytes' (12 + 6 * i) 2 (by omega) hdrop,
    byteSlice_congr bytes bytes' (12 + 6 * i + 2) 4 (by omega) hdrop]

theorem v3_lengths_congr (bytes bytes' : List Nat) (cols : Nat)
    (hdrop : bytes.drop 4 = bytes'.drop 4) :
    v3_lengths bytes cols = v3_lengths bytes' cols := by
  unfold v3_lengths
  apply List.map_congr_left
  intro i _
  rw [byteSlice_congr bytes bytes' _ 4 (by omega) hdrop]

/-- Everything `parse_from_raw_block` computes is independent of the
4-byte declared total length at the head of the buffer. -/
theorem parse_v3_full_congr (bytes bytes' : List Nat) (rows cols : Nat)
    (prec : Precision) (hlen : bytes.length = bytes'.length)
    (hdrop : bytes.drop 4 = bytes'.drop 4) :
    parse_from_raw_block_full bytes rows cols prec =
      parse_from_raw_block_full bytes' rows cols prec := by
  unfold parse_from_raw_block_full
  dsimp only
  rw [hlen, v3_schemas_congr bytes bytes' cols hdrop,
    v3_lengths_congr bytes bytes' cols hdrop,
    byteSlice_congr bytes bytes' 4 8 (by omega) hdrop]
  cases hschemas : v3_schemas bytes' cols with
  | none => rfl
  | some schemas =>
    dsimp only
    rw [parse_v3_cols_congr bytes bytes' rows prec hlen hdrop
      (schemas.zip (v3_lengths bytes' cols)) (12 + cols * 6 + 4 * cols) (by omega)]

/-- C4 counterexample: a 24-byte single-column Bool block whose header
declares a total length of 999 decodes successfully with a cumulative
consumed offset of 24 ≠ 999 — the invariant violation is not an error of
any kind. -/
theorem claim_C4_counterexample :
    (parse_from_raw_block (lePad 4 999 ++ v3DemoRest) 1 1 .millisecond).isSome = true ∧
    v3_consumed_offset (lePad 4 999 ++ v3DemoRest) 1 1 .millisecond ≠
      some (v3_declared_len (lePad 4 999 ++ v3DemoRest)) := by
  decide

/-- C4 (amended): v3 decode never compares the cumulative consumed offset
with the header-declared total length; on the demo block the decode
succeeds with consumed offset 24 for every declared length `n`
(`24 ≤ n` keeps even the source's per-column `debug_assert!(data_offset
<= len)` satisfied, and `n < 2^32` fits the 4-byte field). -/
theorem claim_C4_header_len_unchecked (n : Nat) (h24 : 24 ≤ n) (h32 : n < 2 ^ 32) :
    v3_declared_len (lePad 4 n ++ v3DemoRest) = n ∧
    v3_consumed_offset (lePad 4 n ++ v3DemoRest) 1 1 .millisecond = some 24 ∧
    (parse_from_raw_block (lePad 4 n ++ v3DemoRest) 1 1 .millisecond).isSome = true := by
  have e1 : (lePad 4 n ++ v3DemoRest).drop 4 = v3DemoRest := by
    have h := List.drop_left (lePad 4 n) v3DemoRest
    rw [lePad_length] at h
    exact h
  have e2 : (lePad 4 0 ++ v3DemoRest).drop 4 = v3DemoRest := by
    have h := List.drop_left (lePad 4 0) v3DemoRest
    rw [lePad_length] at h
    exact h
  have hlen : (lePad 4 n ++ v3DemoRest).length = (lePad 4 0 ++ v3DemoRest).length := by
    simp [lePad_length]
  have hfull := parse_v3_full_congr (lePad 4 n ++ v3DemoRest)
    (lePad 4 0 ++ v3DemoRest) 1 1 .millisecond hlen (e1.trans e2.symm)
  refine ⟨?_, ?_, ?_⟩
  · unfold v3_declared_len byteSlice
    rw [List.drop_zero]
    have htake : (lePad 4 n ++ v3DemoRest).take 4 = lePad 4 n := by
      have h := List.take_left (lePad 4 n) v3DemoRest
      rw [lePad_length] at h
      exact h
    rw [htake, leUint_lePad_mod]
    have : (256 : Nat) ^ 4 = 2 ^ 32 := by norm_num
    rw [this]
    exact Nat.mod_eq_of_lt h32
  · unfold v3_consumed_offset
    rw [hfull]
    decide
  · unfold parse_from_raw_block
    rw [hfull]
    decide

/-- C5: a binary frame of at least 12 bytes is routed to the fetch
channel registered under the little-endian `res_id` of its first 8 bytes;
the remainder `block[8..]` is delivered as a v3 raw block exactly when the
32-bit length at bytes 8..12 plus 8 equals the frame length, and as a v2
dense payload otherwise; an unregistered `res_id` delivers nothing. -/
theorem claim_C5_binary_frame_dispatch (block : List Nat)
    (fetches : Nat → Option Nat) (h12 : 12 ≤ block.length) :
    (∀ chan data, reader_binary_route fetches block = some (chan, data) →
      fetches (leUint (block.take 8)) = some chan ∧
      ((∃ bs, data = .block bs) ↔
        leUint ((block.drop 8).take 4) + 8 = block.length) ∧
      (data = .block (block.drop 8) ∨ data = .blockV2 (block.drop 8))) ∧
    (fetches (leUint (block.take 8)) = none →
      reader_binary_route fetches block = none) := by
  constructor
  · intro chan data h
    unfold reader_binary_route binary_frame_dispatch at h
    rw [if_pos h12] at h
    dsimp only at h
    by_cases hb : block.length = leUint ((block.drop 8).take 4) + 8
    · rw [if_pos hb] at h
      dsimp only at h
      cases hf : fetches (leUint (block.take 8)) with
      | none => rw [hf] at h; exact absurd h (by simp)
      | some c =>
        rw [hf] at h
        simp only [Option.some.injEq, Prod.mk.injEq] at h
        obtain ⟨hc, hd⟩ := h
        subst hc
        subst hd
        refine ⟨rfl, ?_, Or.inl rfl⟩
        constructor
        · intro _; omega
        · intro _; exact ⟨block.drop 8, rfl⟩
    · rw [if_neg hb] at h
      dsimp only at h
      cases hf : fetches (leUint (block.take 8)) with
      | none => rw [hf] at h; exact absurd h (by simp)
      | some c =>
        rw [hf] at h
        simp only [Option.some.injEq, Prod.mk.injEq] at h
        obtain ⟨hc, hd⟩ := h
        subst hc
        subst hd
        refine ⟨rfl, ?_, Or.inr rfl⟩
        constructor
        · intro hex
          obtain ⟨bs, hbs⟩ := hex
          exact absurd hbs (by simp)
        · intro hlen
          exact absurd hlen.symm hb
  · intro hnone
    unfold reader_binary_route binary_frame_dispatch
    rw [if_pos h12]
    dsimp only
    by_cases hb : block.length = leUint ((block.drop 8).take 4) + 8 <;>
      simp [hb, hnone]

/-- Witness for C5 on a 16-byte v3 frame with `res_id = 7` and a 12-byte
v2 frame with `res_id = 9`. -/
theorem claim_C5_witness :
    reader_binary_route
      (fun k => if k = 7 then some 42 else none)
      [7, 0, 0, 0, 0, 0, 0, 0, 8, 0, 0, 0, 1, 2, 3, 4] =
      some (42, .block [8, 0, 0, 0, 1, 2, 3, 4]) ∧
    reader_binary_route (fun _ => none)
      [9, 0, 0, 0, 0, 0, 0, 0, 0, 0, 0, 0] = none := by
  constructor
  · decide
  · exact (claim_C5_binary_frame_dispatch
      [9, 0, 0, 0, 0, 0, 0, 0, 0, 0, 0, 0] (fun _ => none) (by decide)).2 rfl

/-- C6: dropping a `ResultSet` whose receiver is still present removes
exactly its own `res_id` from the fetches map (all other entries
unchanged) and enqueues one `Close` message; the enqueue outcome is
discarded (best-effort), and a terminal-state drop does nothing. -/
theorem claim_C6_drop_result_set (fetches : Nat → Option Nat) (args : WsResArgs)
    (enqueue_ok : Bool) :
    (result_set_drop fetches true args enqueue_ok).1 args.id = none ∧
    (∀ k, k ≠ args.id →
      (result_set_drop fetches true args enqueue_ok).1 k = fetches k) ∧
    (result_set_drop fetches true args enqueue_ok).2 = [WsSend.close args] ∧
    result_set_drop fetches true args enqueue_ok =
      result_set_drop fetches true args (!enqueue_ok) ∧
    result_set_drop fetches false args enqueue_ok = (fetches, []) := by
  unfold result_set_drop
  exact ⟨by simp, fun k hk => by simp [hk], rfl, rfl, rfl⟩

/-- Witness for C6: dropping `res_id = 5` removes only entry 5. -/
theorem claim_C6_witness :
    (result_set_drop
      (fun k => if k = 5 then some 1 else if k = 9 then some 2 else none)
      true ⟨1, 5⟩ true).1 5 = none ∧
    (result_set_drop
      (fun k => if k = 5 then some 1 else if k = 9 then some 2 else none)
      true ⟨1, 5⟩ true).1 9 = some 2 ∧
    (result_set_drop
      (fun k => if k = 5 then some 1 else if k = 9 then some 2 else none)
      true ⟨1, 5⟩ true).2 = [WsSend.close ⟨1, 5⟩] := by
  refine ⟨(claim_C6_drop_result_set _ ⟨1, 5⟩ true).1,
    ((claim_C6_drop_result_set _ ⟨1, 5⟩ true).2.1 9 (by decide)).trans (by decide),
    (claim_C6_drop_result_set _ ⟨1, 5⟩ true).2.2.1⟩

/-- C7 counterexample: a version probe that fails (times out) does not
produce a connection error — the builder proceeds with the fallback
version `"2.x"`; likewise a missing conn reply is silently ignored. -/
theorem claim_C7_counterexample :
    from_wsinfo_model .timeout (.connMsg 0) = some (.ok "2.x") ∧
    from_wsinfo_model (.versionMsg 0 "3.0.0.0") .missing = some (.ok "3.0.0.0") := by
  constructor <;> rfl

/-- C7 (amended): the client sends a Version probe first and caches the
version string only when the reply is a version message with server code
0; on timeout, a non-text frame or a different action it caches `"2.x"`
and proceeds; a connection error is returned exactly for a non-zero
server code in the version or conn reply, while a missing conn reply is
ignored. -/
theorem claim_C7_connect_amended (probe : ProbeOutcome) (conn : ConnReply) :
    ((probe = .timeout ∨ probe = .nonText ∨ probe = .otherAction) →
      (conn = .missing ∨ conn = .connMsg 0) →
      from_wsinfo_model probe conn = some (.ok "2.x")) ∧
    (∀ ver, probe = .versionMsg 0 ver → (conn = .missing ∨ conn = .connMsg 0) →
      from_wsinfo_model probe conn = some (.ok ver)) ∧
    (∀ code ver, probe = .versionMsg code ver → code ≠ 0 →
      from_wsinfo_model probe conn = some (.error (.server code))) ∧
    (∀ code v, conn = .connMsg code → code ≠ 0 → version_step probe = .ok v →
      from_wsinfo_model probe conn = some (.error (.server code))) := by
  refine ⟨?_, ?_, ?_, ?_⟩
  · rintro (hp | hp | hp) (hc | hc) <;> subst hp <;> subst hc <;> rfl
  · rintro ver hp (hc | hc) <;> subst hp <;> subst hc <;>
      simp [from_wsinfo_model, version_step, conn_step]
  · rintro code ver hp hcode
    subst hp
    simp [from_wsinfo_model, version_step, hcode]
  · rintro code v hc hcode hver
    subst hc
    simp [from_wsinfo_model, hver, conn_step, hcode]

/-- Witness for the amended C7: a clean version reply is cached and a
non-zero conn code surfaces as a server error. -/
theorem claim_C7_witness :
    from_wsinfo_model (.versionMsg 0 "3.3.0") (.connMsg 0) = some (.ok "3.3.0") ∧
    from_wsinfo_model (.versionMsg 5 "x") .missing =
      some (.error (.server 5)) :=
  ⟨(claim_C7_connect_amended (.versionMsg 0 "3.3.0") (.connMsg 0)).2.1 "3.3.0"
      rfl (Or.inr rfl),
   (claim_C7_connect_amended (.versionMsg 5 "x") .missing).2.2.1 5 "x"
      rfl (by decide)⟩

theorem scheme_for_none_iff (driver : List Char) (proto : Option (List Char)) :
    scheme_for driver proto = none ↔
      ¬ (driver = "ws".data ∨ driver = "http".data ∨
         driver = "wss".data ∨ driver = "https".data ∨
         ((driver = "taos".data ∨ driver = "taosws".data ∨ driver = "tmq".data) ∧
          (proto = some "ws".data ∨ proto = some "http".data ∨
           proto = some "wss".data ∨ proto = some "https".data ∨
           proto = none))) := by
  unfold scheme_for
  split_ifs with h1 h2 h3 h4 <;> simp <;> tauto

/-- C10: the builder's defaults and driver screen — no addresses yields
`localhost:6041`; without a `token` parameter the credentials default to
`root`/`taosdata`; and the DSN is rejected (with `InvalidDriver` carrying
the re-rendered DSN) exactly when the driver/protocol pair lies outside
`{ws, http, wss, https}` and `{taos, taosws, tmq} × {ws, http, wss,
https, none}`. -/
theorem claim_C10_taos_builder_defaults (dsn : Dsn) :
    (∀ b, TaosBuilder.from_dsn dsn = .ok b →
      (dsn.addresses = [] → b.addr = "localhost:6041".data) ∧
      (List.lookup "token".data dsn.params = none →
        b.auth = .plain (dsn.username.getD "root".data)
          (dsn.password.getD "taosdata".data))) ∧
    ((∃ e, TaosBuilder.from_dsn dsn = .error e) ↔
      ¬ (dsn.driver = "ws".data ∨ dsn.driver = "http".data ∨
         dsn.driver = "wss".data ∨ dsn.driver = "https".data ∨
         ((dsn.driver = "taos".data ∨ dsn.driver = "taosws".data ∨
           dsn.driver = "tmq".data) ∧
          (dsn.protocol = some "ws".data ∨ dsn.protocol = some "http".data ∨
           dsn.protocol = some "wss".data ∨ dsn.protocol = some "https".data ∨
           dsn.protocol = none)))) ∧
    (∀ e, TaosBuilder.from_dsn dsn = .error e →
      e = .invalidDriver dsn.display) := by
  refine ⟨?_, ?_, ?_⟩
  · intro b hb
    unfold TaosBuilder.from_dsn at hb
    cases hS : scheme_for dsn.driver dsn.protocol with
    | none => rw [hS] at hb; exact absurd hb (by simp)
    | some scheme =>
      rw [hS] at hb
      dsimp only at hb
      cases hT : List.lookup "token".data dsn.params with
      | some t =>
        rw [hT] at hb
        simp only [Except.ok.injEq] at hb
        subst hb
        constructor
        · intro ha
          simp [ha]
        · intro hnone
          exact absurd hnone (by simp)
      | none =>
        rw [hT] at hb
        simp only [Except.ok.injEq] at hb
        subst hb
        constructor
        · intro ha
          simp [ha]
        · intro _
          rfl
  · rw [← scheme_for_none_iff dsn.driver dsn.protocol]
    unfold TaosBuilder.from_dsn
    cases hS : scheme_for dsn.driver dsn.protocol with
    | none => simp
    | some scheme =>
      dsimp only
      cases hT : List.lookup "token".data dsn.params <;> simp
  · intro e he
    unfold TaosBuilder.from_dsn at he
    cases hS : scheme_for dsn.driver dsn.protocol with
    | none =>
      rw [hS] at he
      simp only [Except.error.injEq] at he
      exact he.symm
    | some scheme =>
      rw [hS] at he
      dsimp only at he
      cases hT : List.lookup "token".data dsn.params <;>
        rw [hT] at he <;> exact absurd he (by simp)

/-! ### Split-function lemmas for the DSN development -/

theorem splitOnFirst_eq_none {c : Char} : ∀ {s : List Char},
    splitOnFirst c s = none ↔ c ∉ s := by
  intro s
  induction s with
  | nil => simp [splitOnFirst]
  | cons x rest ih =>
    simp only [splitOnFirst, List.mem_cons]
    by_cases hx : x = c
    · subst hx
      simp
    · simp only [hx, if_false]
      constructor
      · intro h
        cases hs : splitOnFirst c rest with
        | some p => rw [hs] at h; exact absurd h (by simp)
        | none =>
          intro hm
          rcases hm with hm | hm
          · exact hx hm.symm
          · exact (ih.mp hs) hm
      · intro h
        rw [ih.mpr (fun hm => h (Or.inr hm))]
        rfl

theorem splitOnFirst_spec {c : Char} : ∀ {s a b : List Char},
    splitOnFirst c s = some (a, b) → s = a ++ c :: b ∧ c ∉ a := by
  intro s
  induction s with
  | nil => intro a b h; exact absurd h (by simp [splitOnFirst])
  | cons x rest ih =>
    intro a b h
    by_cases hx : x = c
    · subst hx
      simp only [splitOnFirst, eq_self_iff_true, if_true, Option.some.injEq,
        Prod.mk.injEq] at h
      obtain ⟨ha, hb⟩ := h
      subst ha
      subst hb
      exact ⟨rfl, by simp⟩
    · simp only [splitOnFirst, hx, if_false] at h
      cases hs : splitOnFirst c rest with
      | none => rw [hs] at h; exact absurd h (by simp)
      | some p =>
        obtain ⟨p1, p2⟩ := p
        rw [hs] at h
        simp only [Option.map_some', Option.some.injEq, Prod.mk.injEq] at h
        obtain ⟨h1, h2⟩ := h
        obtain ⟨hr, hm⟩ := ih hs
        subst h2
        rw [← h1]
        constructor
        · rw [hr]
          rfl
        · intro hmem
          rcases List.mem_cons.mp hmem with h' | h'
          · exact hx h'.symm
          · exact hm h'

theorem splitOnFirst_append {c : Char} : ∀ {a : List Char} (b : List Char),
    c ∉ a → splitOnFirst c (a ++ c :: b) = some (a, b) := by
  intro a
  induction a with
  | nil => intro b _; simp [splitOnFirst]
  | cons x rest ih =>
    intro b hmem
    have hx : x ≠ c := fun h => hmem (by simp [h])
    simp only [List.cons_append, splitOnFirst, hx, if_false]
    rw [List.append_eq, ih b (fun hm => hmem (by simp [hm]))]
    rfl

theorem splitOnFirst_none {c : Char} {s : List Char} (h : c ∉ s) :
    splitOnFirst c s = none := splitOnFirst_eq_none.mpr h

theorem splitSchemeSep_append : ∀ {p : List Char} (r : List Char),
    (∀ x ∈ p, x ≠ ':') →
    splitSchemeSep (p ++ ':' :: '/' :: '/' :: r) = some (p, r) := by
  intro p
  induction p with
  | nil =>
    intro r _
    simp [splitSchemeSep]
  | cons x rest ih =>
    intro r hmem
    have hx : x ≠ ':' := hmem x (by simp)
    simp only [List.cons_append, splitSchemeSep, hx, false_and, if_false]
    rw [List.append_eq, ih r (fun y hy => hmem y (by simp [hy]))]
    rfl

theorem splitAll_ne_nil (c : Char) : ∀ (s : List Char), splitAll c s ≠ [] := by
  intro s
  induction s with
  | nil => simp [splitAll]
  | cons x rest ih =>
    by_cases hx : x = c
    · simp [splitAll, hx]
    · simp only [splitAll, hx, if_false]
      cases hs : splitAll c rest with
      | nil => simp
      | cons p ps => simp

theorem splitAll_single {c : Char} : ∀ {t : List Char}, c ∉ t →
    splitAll c t = [t] := by
  intro t
  induction t with
  | nil => intro _; rfl
  | cons x rest ih =>
    intro hmem
    have hx : x ≠ c := fun h => hmem (by simp [h])
    simp only [splitAll, hx, if_false]
    rw [ih (fun h => hmem (by simp [h]))]

theorem splitAll_append {c : Char} : ∀ {t : List Char} (r : List Char), c ∉ t →
    splitAll c (t ++ c :: r) = t :: splitAll c r := by
  intro t
  induction t with
  | nil => intro r _; simp [splitAll]
  | cons x rest ih =>
    intro r hmem
    have hx : x ≠ c := fun h => hmem (by simp [h])
    simp only [List.cons_append, splitAll, hx, if_false]
    rw [List.append_eq, ih r (fun h => hmem (by simp [h]))]

theorem joinChar_cons (c : Char) (t t2 : List Char) (ts : List (List Char)) :
    joinChar c (t :: t2 :: ts) = t ++ c :: joinChar c (t2 :: ts) := rfl

theorem splitAll_join (c : Char) : ∀ (tokens : List (List Char)),
    tokens ≠ [] → (∀ t ∈ tokens, c ∉ t) →
    splitAll c (joinChar c tokens) = tokens := by
  intro tokens
  induction tokens with
  | nil => intro h _; exact absurd rfl h
  | cons t ts ih =>
    intro _ hmem
    cases ts with
    | nil => exact splitAll_single (hmem t (by simp))
    | cons t2 ts' =>
      rw [joinChar_cons, splitAll_append _ (hmem t (by simp)),
        ih (by simp) (fun u hu => hmem u (by simp [hu]))]

theorem splitAll_not_mem (c : Char) : ∀ (s : List Char),
    ∀ t ∈ splitAll c s, c ∉ t := by
  intro s
  induction s with
  | nil =>
    intro t ht
    simp only [splitAll, List.mem_singleton] at ht
    simp [ht]
  | cons x rest ih =>
    intro t ht
    by_cases hx : x = c
    · subst hx
      simp only [splitAll, eq_self_iff_true, if_true, List.mem_cons] at ht
      rcases ht with ht | ht
      · simp [ht]
      · exact ih t ht
    · simp only [splitAll, hx, if_false] at ht
      cases hs : splitAll c rest with
      | nil => exact absurd hs (splitAll_ne_nil c rest)
      | cons p ps =>
        rw [hs] at ht
        rcases List.mem_cons.mp ht with ht | ht
        · subst ht
          intro hm
          rcases List.mem_cons.mp hm with hm | hm
          · exact hx hm.symm
          · exact ih p (by rw [hs]; simp) hm
        · exact ih t (by rw [hs]; simp [ht])

theorem splitAll_mem_trans (c : Char) : ∀ (s : List Char) (t : List Char),
    t ∈ splitAll c s → ∀ x ∈ t, x ∈ s := by
  intro s
  induction s with
  | nil =>
    intro t ht x hx
    simp only [splitAll, List.mem_singleton] at ht
    subst ht
    exact absurd hx (by simp)
  | cons y rest ih =>
    intro t ht x hx
    by_cases hy : y = c
    · subst hy
      simp only [splitAll, eq_self_iff_true, if_true, List.mem_cons] at ht
      rcases ht with ht | ht
      · subst ht; exact absurd hx (by simp)
      · exact List.mem_cons_of_mem y (ih t ht x hx)
    · simp only [splitAll, hy, if_false] at ht
      cases hs : splitAll c rest with
      | nil => exact absurd hs (splitAll_ne_nil c rest)
      | cons p ps =>
        rw [hs] at ht
        rcases List.mem_cons.mp ht with ht | ht
        · subst ht
          rcases List.mem_cons.mp hx with hx | hx
          · simp [hx]
          · exact List.mem_cons_of_mem y (ih p (by rw [hs]; simp) x hx)
        · exact List.mem_cons_of_mem y (ih t (by rw [hs]; simp [ht]) x hx)

theorem mapM_some_mem {α β : Type} (f : α → Option β) :
    ∀ (l : List α) (l' : List β), l.mapM f = some l' →
      ∀ b ∈ l', ∃ a ∈ l, f a = some b := by
  intro l
  induction l with
  | nil =>
    intro l' h b hb
    simp only [List.mapM_nil, Option.pure_def, Option.some.injEq] at h
    rw [← h] at hb
    exact absurd hb (by simp)
  | cons a rest ih =>
    intro l' h b hb
    rw [List.mapM_cons] at h
    cases hfa : f a with
    | none => rw [hfa] at h; exact absurd h (by simp)
    | some b0 =>
      rw [hfa] at h
      cases hrest : rest.mapM f with
      | none => rw [hrest] at h; exact absurd h (by simp)
      | some bs =>
        rw [hrest] at h
        simp at h
        rw [← h] at hb
        rcases List.mem_cons.mp hb with hb | hb
        · exact ⟨a, by simp, by rw [hfa, hb]⟩
        · obtain ⟨a', ha', hfa'⟩ := ih bs hrest b hb
          exact ⟨a', by simp [ha'], hfa'⟩

theorem mapM_map_id {α β : Type} (f : β → Option α) (g : α → β) :
    ∀ (l : List α), (∀ a ∈ l, f (g a) = some a) →
      (l.map g).mapM f = some l := by
  intro l
  induction l with
  | nil => intro _; rfl
  | cons a rest ih =>
    intro h
    simp only [List.map_cons, List.mapM_cons, h a (by simp),
      ih (fun x hx => h x (by simp [hx]))]
    rfl

/-! ### C3: digit, hex and percent-encoding lemmas -/
theorem pctDecode_cons_ne {c : Char} (l : List Char) (hc : c ≠ '%') :
    pctDecode (c :: l) = c :: pctDecode l := by
  match l with
  | [] => rfl
  | [x] => rfl
  | x :: y :: t =>
    rw [pctDecode, if_neg]
    intro h
    exact hc h.1

theorem pctDecode_pct_hex {h1 h2 : Char} (t : List Char)
    (e1 : (hexVal h1).isSome = true) (e2 : (hexVal h2).isSome = true) :
    pctDecode ('%' :: h1 :: h2 :: t) =
      Char.ofNat (16 * (hexVal h1).getD 0 + (hexVal h2).getD 0) :: pctDecode t := by
  rw [pctDecode, if_pos ⟨rfl, e1, e2⟩]

theorem isDigit_toNat {c : Char} (h : c.isDigit = true) :
    48 ≤ c.toNat ∧ c.toNat ≤ 57 := by
  simp [Char.isDigit] at h
  exact ⟨h.1, h.2⟩

theorem natToDigits_all_digit : ∀ (n : Nat), ∀ c ∈ natToDigits n, c.isDigit = true := by
  intro n
  induction n using Nat.strong_induction_on with
  | _ n ih =>
    rw [natToDigits]
    split
    · rename_i h
      intro c hc
      simp only [List.mem_singleton] at hc
      subst hc
      interval_cases n <;> decide
    · rename_i h
      intro c hc
      rw [List.mem_append] at hc
      rcases hc with hc | hc
      · exact ih (n / 10) (Nat.div_lt_self (by omega) (by omega)) c hc
      · simp only [List.mem_singleton] at hc
        subst hc
        have hlt : n % 10 < 10 := Nat.mod_lt _ (by omega)
        generalize hk : n % 10 = k at hlt ⊢
        interval_cases k <;> decide

theorem natToDigits_ne_nil (n : Nat) : natToDigits n ≠ [] := by
  rw [natToDigits]
  split <;> simp

theorem digitsToNat_append (a : List Char) (d : Char) :
    digitsToNat (a ++ [d]) = digitsToNat a * 10 + (d.toNat - 48) := by
  unfold digitsToNat
  rw [List.foldl_append]
  simp [List.foldl]

theorem digitsToNat_natToDigits : ∀ (n : Nat), digitsToNat (natToDigits n) = n := by
  intro n
  induction n using Nat.strong_induction_on with
  | _ n ih =>
    rw [natToDigits]
    split
    · rename_i h
      have ht : (Char.ofNat (48 + n)).toNat = 48 + n := by interval_cases n <;> decide
      simp [digitsToNat, ht]
    · rename_i h
      rw [digitsToNat_append, ih (n / 10) (Nat.div_lt_self (by omega) (by omega))]
      have hlt : n % 10 < 10 := Nat.mod_lt _ (by omega)
      have ht : (Char.ofNat (48 + n % 10)).toNat = 48 + n % 10 := by
        generalize hk : n % 10 = k at hlt ⊢
        interval_cases k <;> decide
      rw [ht]
      omega

theorem hexVal_hexDigitUpper {n : Nat} (h : n < 16) :
    hexVal (hexDigitUpper n) = some n := by
  interval_cases n <;> decide

theorem unreservedChar_ne_pct {c : Char} (h : unreservedChar c = true) : c ≠ '%' := by
  intro he
  subst he
  exact absurd h (by decide)

theorem pctDecode_encodePath : ∀ (p : List Char), (∀ c ∈ p, c.toNat < 256) →
    pctDecode (encodePath p) = p := by
  intro p
  induction p with
  | nil => intro _; rfl
  | cons c rest ih =>
    intro hb
    rw [encodePath]
    by_cases hu : unreservedChar c
    · rw [if_pos hu, pctDecode_cons_ne _ (unreservedChar_ne_pct hu),
        ih (fun x hx => hb x (by simp [hx]))]
    · rw [if_neg hu]
      have e1 : hexVal (hexDigitUpper (c.toNat / 16 % 16)) = some (c.toNat / 16 % 16) :=
        hexVal_hexDigitUpper (Nat.mod_lt _ (by omega))
      have e2 : hexVal (hexDigitUpper (c.toNat % 16)) = some (c.toNat % 16) :=
        hexVal_hexDigitUpper (Nat.mod_lt _ (by omega))
      rw [pctDecode_pct_hex _ (by rw [e1]; rfl) (by rw [e2]; rfl)]
      rw [e1, e2]
      simp only [Option.getD_some]
      have hc : c.toNat < 256 := hb c (by simp)
      have hm : 16 * (c.toNat / 16 % 16) + c.toNat % 16 = c.toNat := by omega
      rw [hm, Char.ofNat_toNat, ih (fun x hx => hb x (by simp [hx]))]

theorem hexDigitUpper_unreserved {k : Nat} (h : k < 16) :
    unreservedChar (hexDigitUpper k) = true := by
  interval_cases k <;> decide

theorem encodePath_all_pathChar : ∀ (p : List Char), ∀ c ∈ encodePath p,
    pathChar c = true := by
  intro p
  induction p with
  | nil => intro c hc; exact absurd hc (by simp [encodePath])
  | cons x rest ih =>
    intro c hc
    rw [encodePath] at hc
    by_cases hu : unreservedChar x
    · rw [if_pos hu] at hc
      rcases List.mem_cons.mp hc with h | h
      · subst h; simp [pathChar, hu]
      · exact ih c h
    · rw [if_neg hu] at hc
      rcases List.mem_cons.mp hc with h | h
      · subst h; decide
      rcases List.mem_cons.mp h with h | h
      · subst h
        simp [pathChar, hexDigitUpper_unreserved (Nat.mod_lt _ (by omega) : x.toNat / 16 % 16 < 16)]
      rcases List.mem_cons.mp h with h | h
      · subst h
        simp [pathChar, hexDigitUpper_unreserved (Nat.mod_lt _ (by omega) : x.toNat % 16 < 16)]
      · exact ih c h

theorem encodePath_ne_nil {p : List Char} (h : p ≠ []) : encodePath p ≠ [] := by
  match p with
  | [] => exact absurd rfl h
  | c :: rest =>
    rw [encodePath]
    split <;> simp

theorem encodePath_mem_pct {p : List Char}
    (h : p.any (fun c => !(unreservedChar c)) = true) :
    '%' ∈ encodePath p := by
  induction p with
  | nil => simp at h
  | cons x rest ih =>
    rw [encodePath]
    by_cases hu : unreservedChar x
    · rw [if_pos hu]
      simp only [List.any_cons, hu, Bool.not_true, Bool.false_or] at h
      exact List.mem_cons_of_mem _ (ih h)
    · rw [if_neg hu]
      exact List.mem_cons_self _ _

theorem pathChar_toNat_lt {c : Char} (h : pathChar c = true) : c.toNat < 256 := by
  simp only [pathChar, unreservedChar, Char.isAlphanum, Char.isAlpha, Char.isUpper,
    Char.isLower, Char.isDigit, Bool.or_eq_true, Bool.and_eq_true, ge_iff_le,
    decide_eq_true_eq] at h
  rcases h with ((((((h | h) | h) | h) | h) | h) | h) | h
  · have h2 : c.toNat ≤ 90 := h.2
    omega
  · have h2 : c.toNat ≤ 122 := h.2
    omega
  · have h2 : c.toNat ≤ 57 := h.2
    omega
  · subst h; decide
  · subst h; decide
  · subst h; decide
  · subst h; decide
  · subst h; decide

theorem hexVal_lt {c : Char} {k : Nat} (h : hexVal c = some k) : k < 16 := by
  unfold hexVal at h
  split at h
  · rename_i hd
    have := isDigit_toNat hd
    simp only [Option.some.injEq] at h
    omega
  split at h
  · rename_i hd
    have h1 : 65 ≤ c.toNat := hd.1
    have h2 : c.toNat ≤ 70 := hd.2
    simp only [Option.some.injEq] at h
    omega
  split at h
  · rename_i hd
    have h1 : 97 ≤ c.toNat := hd.1
    have h2 : c.toNat ≤ 102 := hd.2
    simp only [Option.some.injEq] at h
    omega
  · exact absurd h (by simp)

theorem toNat_ofNat_lt {n : Nat} (h : n < 55296) : (Char.ofNat n).toNat = n := by
  unfold Char.ofNat
  rw [dif_pos (Or.inl h)]
  rfl

theorem pctDecode_ne_nil {s : List Char} (h : s ≠ []) : pctDecode s ≠ [] := by
  match s with
  | [] => exact absurd rfl h
  | [c] => simp [pctDecode]
  | [c, d] => simp [pctDecode]
  | c :: d :: e :: t =>
    rw [pctDecode]
    split <;> simp

theorem pctDecode_toNat_lt : ∀ (n : Nat) (s : List Char), s.length ≤ n →
    (∀ c ∈ s, pathChar c = true) → ∀ c ∈ pctDecode s, c.toNat < 256 := by
  intro n
  induction n with
  | zero =>
    intro s hs _
    match s with
    | [] => intro c hc; exact absurd hc (by simp [pctDecode])
    | _ :: _ => simp at hs
  | succ n ih =>
    intro s hs hall
    match s with
    | [] => intro c hc; exact absurd hc (by simp [pctDecode])
    | [x] =>
      simp only [pctDecode]
      intro c hc
      rcases List.mem_cons.mp hc with h | h
      · subst h; exact pathChar_toNat_lt (hall _ (by simp))
      · exact absurd h (by simp [pctDecode])
    | [x, y] =>
      simp only [pctDecode]
      intro c hc
      rcases List.mem_cons.mp hc with h | h
      · subst h; exact pathChar_toNat_lt (hall _ (by simp))
      · exact ih [y] (by simp at hs ⊢; omega)
          (fun c hc => hall c (by simp at hc; simp [hc])) c h
    | x :: h1 :: h2 :: rest2 =>
      rw [pctDecode]
      by_cases hcond : x = '%' ∧ (hexVal h1).isSome = true ∧ (hexVal h2).isSome = true
      · rw [if_pos hcond]
        intro c hc
        rcases List.mem_cons.mp hc with h | h
        · subst h
          obtain ⟨k1, hk1⟩ := Option.isSome_iff_exists.mp hcond.2.1
          obtain ⟨k2, hk2⟩ := Option.isSome_iff_exists.mp hcond.2.2
          rw [hk1, hk2]
          simp only [Option.getD_some]
          rw [toNat_ofNat_lt (by have := hexVal_lt hk1; have := hexVal_lt hk2; omega)]
          have := hexVal_lt hk1
          have := hexVal_lt hk2
          omega
        · exact ih rest2 (by simp at hs ⊢; omega)
            (fun c hc => hall c (by simp at hc ⊢; tauto)) c h
      · rw [if_neg hcond]
        intro c hc
        rcases List.mem_cons.mp hc with h | h
        · subst h; exact pathChar_toNat_lt (hall _ (by simp))
        · exact ih (h1 :: h2 :: rest2) (by simp at hs ⊢; omega)
            (fun c hc => hall c (by simp at hc ⊢; tauto)) c h

/-! ### C3: order lemmas for the parameter map -/

theorem charListLt_irrefl : ∀ (a : List Char), charListLt a a = false := by
  intro a
  induction a with
  | nil => rfl
  | cons x as ih =>
    rw [charListLt, if_neg (lt_irrefl x), if_neg (lt_irrefl x)]
    exact ih

theorem charListLt_trans : ∀ (a b c : List Char), charListLt a b = true →
    charListLt b c = true → charListLt a c = true := by
  intro a
  induction a with
  | nil =>
    intro b c hab hbc
    match b, c with
    | [], _ => exact absurd hab (by simp [charListLt])
    | _ :: _, [] => exact absurd hbc (by simp [charListLt])
    | _ :: _, _ :: _ => simp [charListLt]
  | cons x as ih =>
    intro b c hab hbc
    match b, c with
    | [], _ => exact absurd hab (by simp [charListLt])
    | _ :: _, [] => exact absurd hbc (by simp [charListLt])
    | y :: bs, z :: cs =>
      rw [charListLt] at hab hbc ⊢
      by_cases hxy : x < y
      · by_cases hyz : y < z
        · rw [if_pos (lt_trans hxy hyz)]
        · rw [if_neg hyz] at hbc
          by_cases hzy : z < y
          · rw [if_pos hzy] at hbc
            exact absurd hbc (by simp)
          · have he : z = y := le_antisymm (not_lt.mp hyz) (not_lt.mp hzy)
            subst he
            rw [if_pos hxy]
      · rw [if_neg hxy] at hab
        by_cases hyx : y < x
        · rw [if_pos hyx] at hab
          exact absurd hab (by simp)
        · rw [if_neg hyx] at hab
          have he : x = y := le_antisymm (not_lt.mp hyx) (not_lt.mp hxy)
          subst he
          by_cases hxz : x < z
          · rw [if_pos hxz]
          · rw [if_neg hxz] at hbc ⊢
            by_cases hzx : z < x
            · rw [if_pos hzx] at hbc
              exact absurd hbc (by simp)
            · rw [if_neg hzx] at hbc ⊢
              exact ih bs cs hab hbc

theorem charListLt_asymm {a b : List Char} (h : charListLt a b = true) :
    charListLt b a = false := by
  by_contra hc
  rw [Bool.not_eq_false] at hc
  have := charListLt_trans a b a h hc
  rw [charListLt_irrefl] at this
  exact absurd this (by simp)

theorem charListLt_total : ∀ (a b : List Char), a ≠ b →
    charListLt a b = true ∨ charListLt b a = true := by
  intro a
  induction a with
  | nil =>
    intro b hne
    match b with
    | [] => exact absurd rfl hne
    | _ :: _ => left; rfl
  | cons x as ih =>
    intro b hne
    match b with
    | [] => right; rfl
    | y :: bs =>
      rw [charListLt, charListLt]
      by_cases hxy : x < y
      · left
        rw [if_pos hxy]
      · by_cases hyx : y < x
        · right
          rw [if_pos hyx]
        · have he : x = y := le_antisymm (not_lt.mp hyx) (not_lt.mp hxy)
          subst he
          rw [if_neg hxy, if_neg hxy, if_neg hxy, if_neg hxy]
          exact ih bs (fun h => hne (by rw [h]))

theorem charListLt_ne {a b : List Char} (h : charListLt a b = true) : a ≠ b := by
  intro he
  subst he
  rw [charListLt_irrefl] at h
  exact absurd h (by simp)

theorem mem_btreeInsert {k v : List Char} :
    ∀ (m : List (List Char × List Char)) (x : List Char × List Char),
    x ∈ btreeInsert k v m → x = (k, v) ∨ x ∈ m := by
  intro m
  induction m with
  | nil =>
    intro x hx
    simp [btreeInsert] at hx
    exact Or.inl hx
  | cons p rest ih =>
    intro x hx
    rw [btreeInsert] at hx
    by_cases h1 : charListLt k p.1 = true
    · rw [if_pos h1] at hx
      rcases List.mem_cons.mp hx with h | h
      · exact Or.inl h
      · exact Or.inr h
    · rw [if_neg h1] at hx
      by_cases h2 : k = p.1
      · rw [if_pos h2] at hx
        rcases List.mem_cons.mp hx with h | h
        · exact Or.inl h
        · exact Or.inr (List.mem_cons_of_mem _ h)
      · rw [if_neg h2] at hx
        rcases List.mem_cons.mp hx with h | h
        · subst h
          exact Or.inr (List.mem_cons_self _ _)
        · rcases ih x h with h | h
          · exact Or.inl h
          · exact Or.inr (List.mem_cons_of_mem _ h)

theorem btreeInsert_sorted {k v : List Char} :
    ∀ (m : List (List Char × List Char)),
    List.Pairwise (fun x y => charListLt x.1 y.1 = true) m →
    List.Pairwise (fun x y => charListLt x.1 y.1 = true) (btreeInsert k v m) := by
  intro m
  induction m with
  | nil =>
    intro _
    simp [btreeInsert]
  | cons p rest ih =>
    intro hp
    rw [List.pairwise_cons] at hp
    rw [btreeInsert]
    by_cases h1 : charListLt k p.1 = true
    · rw [if_pos h1]
      rw [List.pairwise_cons]
      constructor
      · intro y hy
        rcases List.mem_cons.mp hy with h | h
        · subst h
          exact h1
        · exact charListLt_trans _ _ _ h1 (hp.1 y h)
      · exact List.pairwise_cons.mpr hp
    · rw [if_neg h1]
      by_cases h2 : k = p.1
      · rw [if_pos h2]
        rw [List.pairwise_cons]
        subst h2
        exact hp
      · rw [if_neg h2]
        have hlt : charListLt p.1 k = true := by
          rcases charListLt_total k p.1 h2 with h | h
          · exact absurd h h1
          · exact h
        rw [List.pairwise_cons]
        constructor
        · intro y hy
          rcases mem_btreeInsert rest y hy with h | h
          · subst h
            exact hlt
          · exact hp.1 y h
        · exact ih hp.2

theorem btreeInsert_append {k v : List Char} :
    ∀ (m : List (List Char × List Char)),
    (∀ kv ∈ m, charListLt kv.1 k = true) →
    btreeInsert k v m = m ++ [(k, v)] := by
  intro m
  induction m with
  | nil => intro _; rfl
  | cons p rest ih =>
    intro hlt
    rw [btreeInsert]
    have h1 : charListLt p.1 k = true := hlt p (List.mem_cons_self _ _)
    rw [if_neg (by rw [charListLt_asymm h1]; simp)]
    rw [if_neg (fun he => by rw [he, charListLt_irrefl] at h1; exact absurd h1 (by simp))]
    rw [ih (fun kv hkv => hlt kv (List.mem_cons_of_mem _ hkv))]
    rfl

theorem foldl_btreeInsert_sorted :
    ∀ (ps acc : List (List Char × List Char)),
    List.Pairwise (fun x y => charListLt x.1 y.1 = true) ps →
    (∀ a ∈ acc, ∀ p ∈ ps, charListLt a.1 p.1 = true) →
    ps.foldl (fun m kv => btreeInsert kv.1 kv.2 m) acc = acc ++ ps := by
  intro ps
  induction ps with
  | nil =>
    intro acc _ _
    simp
  | cons p rest ih =>
    intro acc hp hacc
    rw [List.foldl_cons]
    rw [btreeInsert_append acc (fun kv hkv => hacc kv hkv p (List.mem_cons_self _ _))]
    rw [List.pairwise_cons] at hp
    rw [ih (acc ++ [p]) hp.2]
    · simp
    · intro a ha q hq
      rcases List.mem_append.mp ha with h | h
      · exact hacc a h q (List.mem_cons_of_mem _ hq)
      · simp only [List.mem_singleton] at h
        subst h
        exact hp.1 q hq

/-! ### C3: well-formedness of parser output -/

theorem parseScheme_wf {s driver : List Char} {proto : Option (List Char)}
    (h : parseScheme s = some (driver, proto)) :
    (driver ≠ [] ∧ driver.all identChar = true) ∧
    (∀ p, proto = some p → p ≠ [] ∧ p.all identChar = true) := by
  unfold parseScheme at h
  cases hsp : splitOnFirst '+' s with
  | none =>
    rw [hsp] at h
    dsimp only at h
    split at h
    · rename_i hc
      simp only [Option.some.injEq, Prod.mk.injEq] at h
      obtain ⟨h1, h2⟩ := h
      subst h1
      rw [← h2]
      exact ⟨⟨hc.1, hc.2⟩, fun p hp => absurd hp (by simp)⟩
    · exact absurd h (by simp)
  | some pr =>
    obtain ⟨dd, pp⟩ := pr
    rw [hsp] at h
    dsimp only at h
    split at h
    · rename_i hc
      simp only [Option.some.injEq, Prod.mk.injEq] at h
      obtain ⟨h1, h2⟩ := h
      subst h1
      rw [← h2]
      refine ⟨⟨hc.1, hc.2.1⟩, fun p hp => ?_⟩
      simp only [Option.some.injEq] at hp
      subst hp
      exact ⟨hc.2.2.1, hc.2.2.2⟩
    · exact absurd h (by simp)

theorem parseUserinfo_wf {u : List Char} {un pw : Option (List Char)}
    (h : parseUserinfo u = some (un, pw)) :
    (∀ x, un = some x → x ≠ [] ∧ ':' ∉ x ∧ ∀ c ∈ x, c ∈ u) ∧
    (∀ x, pw = some x → ∀ c ∈ x, c ∈ u) ∧
    (un ≠ none ∨ pw ≠ none) := by
  unfold parseUserinfo at h
  split at h
  · exact absurd h (by simp)
  · rename_i hu
    cases hsp : splitOnFirst ':' u with
    | none =>
      rw [hsp] at h
      dsimp only at h
      simp only [Option.some.injEq, Prod.mk.injEq] at h
      obtain ⟨h1, h2⟩ := h
      refine ⟨?_, ?_, ?_⟩
      · intro x hx
        rw [← h1] at hx
        simp only [Option.some.injEq] at hx
        subst hx
        exact ⟨hu, splitOnFirst_eq_none.mp hsp, fun c hc => hc⟩
      · intro x hx
        rw [← h2] at hx
        exact absurd hx (by simp)
      · left
        rw [← h1]
        simp
    | some pr =>
      obtain ⟨user, pass⟩ := pr
      rw [hsp] at h
      dsimp only at h
      simp only [Option.some.injEq, Prod.mk.injEq] at h
      obtain ⟨h1, h2⟩ := h
      obtain ⟨hspec, hnm⟩ := splitOnFirst_spec hsp
      refine ⟨?_, ?_, ?_⟩
      · intro x hx
        rw [← h1] at hx
        split at hx
        · exact absurd hx (by simp)
        · rename_i hne
          simp only [Option.some.injEq] at hx
          subst hx
          exact ⟨hne, hnm, fun c hc => by rw [hspec]; simp [hc]⟩
      · intro x hx
        rw [← h2] at hx
        simp only [Option.some.injEq] at hx
        subst hx
        intro c hc
        rw [hspec]
        simp [hc]
      · right
        rw [← h2]
        simp

theorem parseAddress_wf {s : List Char} {a : Address}
    (h : parseAddress s = some a) : AddressWF a := by
  unfold parseAddress at h
  split at h
  · split at h
    · rename_i hc
      simp only [Option.some.injEq] at h
      subst h
      show pctDecode s ≠ [] ∧ ∀ c ∈ pctDecode s, c.toNat < 256
      refine ⟨pctDecode_ne_nil hc.1, ?_⟩
      exact pctDecode_toNat_lt s.length s le_rfl
        (fun c hcm => by
          have := hc.2
          rw [List.all_eq_true] at this
          exact this c hcm)
    · exact absurd h (by simp)
  · cases hsp : splitOnFirst ':' s with
    | none =>
      rw [hsp] at h
      dsimp only at h
      split at h
      · rename_i hok
        simp only [Option.some.injEq] at h
        subst h
        exact hok
      · exact absurd h (by simp)
    | some pr =>
      obtain ⟨hh, pp⟩ := pr
      rw [hsp] at h
      dsimp only at h
      split at h
      · rename_i hpp
        split at h
        · simp only [Option.some.injEq] at h
          subst h
          exact hpp.2.2
        · split at h
          · rename_i hok
            simp only [Option.some.injEq] at h
            subst h
            exact ⟨hok, hpp.2.2⟩
          · exact absurd h (by simp)
      · exact absurd h (by simp)

theorem parseAddresses_wf {s : List Char} {addrs : List Address}
    (h : parseAddresses s = some addrs) : ∀ a ∈ addrs, AddressWF a := by
  unfold parseAddresses at h
  split at h
  · simp only [Option.some.injEq] at h
    subst h
    intro a ha
    exact absurd ha (by simp)
  · intro a ha
    obtain ⟨t, _, hpa⟩ := mapM_some_mem _ _ _ h a ha
    exact parseAddress_wf hpa

theorem foldl_btreeInsert_pairwise :
    ∀ (ps acc : List (List Char × List Char)),
    List.Pairwise (fun x y => charListLt x.1 y.1 = true) acc →
    List.Pairwise (fun x y => charListLt x.1 y.1 = true)
      (ps.foldl (fun m kv => btreeInsert kv.1 kv.2 m) acc) := by
  intro ps
  induction ps with
  | nil => intro acc h; exact h
  | cons p rest ih => intro acc h; exact ih _ (btreeInsert_sorted _ h)

theorem foldl_btreeInsert_mem :
    ∀ (ps acc : List (List Char × List Char)) (x : List Char × List Char),
    x ∈ ps.foldl (fun m kv => btreeInsert kv.1 kv.2 m) acc →
    x ∈ acc ∨ x ∈ ps := by
  intro ps
  induction ps with
  | nil => intro acc x h; exact Or.inl h
  | cons p rest ih =>
    intro acc x h
    rcases ih _ x h with h | h
    · rcases mem_btreeInsert _ _ h with h | h
      · right
        rw [h]
        simp
      · left
        exact h
    · right
      exact List.mem_cons_of_mem _ h

theorem parseParams_wf {s : List Char} {ps : List (List Char × List Char)}
    (h : parseParams s = some ps) :
    List.Pairwise (fun x y => charListLt x.1 y.1 = true) ps ∧
    ∀ kv ∈ ps, '&' ∉ kv.1 ∧ '=' ∉ kv.1 ∧ '&' ∉ kv.2 := by
  unfold parseParams at h
  split at h
  · exact absurd h (by simp)
  · cases hm : (splitAll '&' s).mapM parsePair with
    | none =>
      rw [hm] at h
      exact absurd h (by simp)
    | some pairs =>
      rw [hm] at h
      simp only [Option.map_some', Option.some.injEq] at h
      subst h
      refine ⟨foldl_btreeInsert_pairwise pairs [] (by simp), ?_⟩
      intro kv hkv
      rcases foldl_btreeInsert_mem pairs [] kv hkv with hx | hx
      · exact absurd hx (by simp)
      · obtain ⟨t, ht, hpp⟩ := mapM_some_mem _ _ _ hm kv hx
        unfold parsePair at hpp
        cases hsp : splitOnFirst '=' t with
        | none =>
          rw [hsp] at hpp
          exact absurd hpp (by simp)
        | some pr =>
          rw [hsp] at hpp
          simp only [Option.map_some', Option.some.injEq] at hpp
          obtain ⟨hspec, hnm⟩ := splitOnFirst_spec hsp
          have hamp : '&' ∉ t := splitAll_not_mem '&' s t ht
          rw [← hpp]
          refine ⟨?_, hnm, ?_⟩
          · intro hcm
            exact hamp (by rw [hspec]; simp [hcm])
          · intro hcm
            exact hamp (by rw [hspec]; simp [hcm])

theorem tryInline_wf {e proto : List Char} {addrs : List Address}
    {dbo : Option (List Char)}
    (h : tryInline e = some (proto, addrs, dbo)) :
    (proto ≠ [] ∧ proto.all identChar = true) ∧ (∀ a ∈ addrs, AddressWF a) ∧
    (∀ db, dbo = some db → dbOk db = true ∧ ∀ c ∈ db, c ∈ e) := by
  unfold tryInline at h
  cases h1 : splitOnFirst '(' e with
  | none =>
    rw [h1] at h
    exact absurd h (by simp)
  | some pr =>
    obtain ⟨p0, rest⟩ := pr
    rw [h1] at h
    dsimp only at h
    split at h
    case isFalse => exact absurd h (by simp)
    case isTrue hpc =>
    cases h2 : splitOnFirst ')' rest with
    | none =>
      rw [h2] at h
      exact absurd h (by simp)
    | some pr2 =>
      obtain ⟨inner, tail⟩ := pr2
      rw [h2] at h
      dsimp only at h
      cases h3 : parseAddresses inner with
      | none =>
        rw [h3] at h
        exact absurd h (by simp)
      | some as =>
        rw [h3] at h
        dsimp only at h
        have hespec := (splitOnFirst_spec h1).1
        have hrspec := (splitOnFirst_spec h2).1
        match tail with
        | [] =>
          simp only [Option.some.injEq, Prod.mk.injEq] at h
          obtain ⟨hp, ha, hd⟩ := h
          subst hp
          rw [← ha, ← hd]
          exact ⟨⟨hpc.1, hpc.2⟩, parseAddresses_wf h3,
            fun db hdb => absurd hdb (by simp)⟩
        | t :: dbs =>
          dsimp only at h
          split at h
          case isFalse => exact absurd h (by simp)
          case isTrue hslash =>
          subst hslash
          split at h
          · simp only [Option.some.injEq, Prod.mk.injEq] at h
            obtain ⟨hp, ha, hd⟩ := h
            subst hp
            rw [← ha, ← hd]
            exact ⟨⟨hpc.1, hpc.2⟩, parseAddresses_wf h3,
              fun db hdb => absurd hdb (by simp)⟩
          · split at h
            case isFalse => exact absurd h (by simp)
            case isTrue hdbok =>
            simp only [Option.some.injEq, Prod.mk.injEq] at h
            obtain ⟨hp, ha, hd⟩ := h
            subst hp
            rw [← ha, ← hd]
            refine ⟨⟨hpc.1, hpc.2⟩, parseAddresses_wf h3, fun db hdb => ?_⟩
            simp only [Option.some.injEq] at hdb
            subst hdb
            refine ⟨hdbok, fun c hcm => ?_⟩
            rw [hespec, hrspec]
            simp [hcm]

theorem tryAddrsDb_wf {e : List Char} {addrs : List Address}
    {dbo : Option (List Char)}
    (h : tryAddrsDb e = some (addrs, dbo)) :
    (∀ a ∈ addrs, AddressWF a) ∧
    (∀ db, dbo = some db → dbOk db = true ∧ ∀ c ∈ db, c ∈ e) := by
  unfold tryAddrsDb at h
  cases h1 : splitOnFirst '/' e with
  | none =>
    rw [h1] at h
    dsimp only at h
    cases h2 : parseAddresses e with
    | none =>
      rw [h2] at h
      exact absurd h (by simp)
    | some as =>
      rw [h2] at h
      simp only [Option.map_some', Option.some.injEq, Prod.mk.injEq] at h
      obtain ⟨ha, hd⟩ := h
      rw [← ha, ← hd]
      exact ⟨parseAddresses_wf h2, fun db hdb => absurd hdb (by simp)⟩
  | some pr =>
    obtain ⟨left, right⟩ := pr
    rw [h1] at h
    dsimp only at h
    cases h2 : parseAddresses left with
    | none =>
      rw [h2] at h
      exact absurd h (by simp)
    | some as =>
      rw [h2] at h
      dsimp only at h
      have hespec := (splitOnFirst_spec h1).1
      split at h
      · simp only [Option.some.injEq, Prod.mk.injEq] at h
        obtain ⟨ha, hd⟩ := h
        rw [← ha, ← hd]
        exact ⟨parseAddresses_wf h2, fun db hdb => absurd hdb (by simp)⟩
      · split at h
        case isFalse => exact absurd h (by simp)
        case isTrue hdbok =>
        simp only [Option.some.injEq, Prod.mk.injEq] at h
        obtain ⟨ha, hd⟩ := h
        rw [← ha, ← hd]
        refine ⟨parseAddresses_wf h2, fun db hdb => ?_⟩
        simp only [Option.some.injEq] at hdb
        subst hdb
        refine ⟨hdbok, fun c hcm => ?_⟩
        rw [hespec]
        simp [hcm]

theorem parseEndpoint_inline {e proto : List Char} {addrs : List Address}
    {dbo : Option (List Char)}
    (h : parseEndpoint e = .inlineProto proto addrs dbo) :
    tryInline e = some (proto, addrs, dbo) := by
  unfold parseEndpoint at h
  split at h
  · exact absurd h (by simp)
  · cases h1 : tryInline e with
    | none =>
      rw [h1] at h
      dsimp only at h
      cases h2 : tryAddrsDb e with
      | none =>
        rw [h2] at h
        dsimp only at h
        exact absurd h (by simp)
      | some pr =>
        obtain ⟨a, b⟩ := pr
        rw [h2] at h
        dsimp only at h
        exact absurd h (by simp)
    | some pr =>
      obtain ⟨p, a, b⟩ := pr
      rw [h1] at h
      dsimp only at h
      simp only [EndpointParse.inlineProto.injEq] at h
      obtain ⟨hp, ha, hb⟩ := h
      rw [hp, ha, hb]

theorem parseEndpoint_addrsDb {e : List Char} {addrs : List Address}
    {dbo : Option (List Char)}
    (h : parseEndpoint e = .addrsDb addrs dbo) :
    tryAddrsDb e = some (addrs, dbo) := by
  unfold parseEndpoint at h
  split at h
  · exact absurd h (by simp)
  · cases h1 : tryInline e with
    | none =>
      rw [h1] at h
      dsimp only at h
      cases h2 : tryAddrsDb e with
      | none =>
        rw [h2] at h
        dsimp only at h
        exact absurd h (by simp)
      | some pr =>
        obtain ⟨a, b⟩ := pr
        rw [h2] at h
        dsimp only at h
        simp only [EndpointParse.addrsDb.injEq] at h
        obtain ⟨ha, hb⟩ := h
        rw [ha, hb]
    | some pr =>
      obtain ⟨p, a, b⟩ := pr
      rw [h1] at h
      dsimp only at h
      exact absurd h (by simp)

theorem parseEndpoint_frag {e f : List Char} (h : parseEndpoint e = .frag f) :
    f = e ∧ e ≠ [] ∧ tryInline e = none ∧ tryAddrsDb e = none := by
  unfold parseEndpoint at h
  split at h
  · exact absurd h (by simp)
  · rename_i hne
    cases h1 : tryInline e with
    | some pr =>
      obtain ⟨p, a, b⟩ := pr
      rw [h1] at h
      dsimp only at h
      exact absurd h (by simp)
    | none =>
      rw [h1] at h
      dsimp only at h
      cases h2 : tryAddrsDb e with
      | some pr =>
        obtain ⟨a, b⟩ := pr
        rw [h2] at h
        dsimp only at h
        exact absurd h (by simp)
      | none =>
        rw [h2] at h
        dsimp only at h
        simp only [EndpointParse.frag.injEq] at h
        exact ⟨h.symm, hne, rfl, rfl⟩

theorem parseDsnBody_wf {driver : List Char} {protocol0 : Option (List Char)}
    {params : List (List Char × List Char)} {body : List Char} {d : Dsn}
    (hdrv : driver ≠ [] ∧ driver.all identChar = true)
    (hproto : ∀ p, protocol0 = some p → p ≠ [] ∧ p.all identChar = true)
    (hqb : '?' ∉ body)
    (hpar : List.Pairwise (fun x y => charListLt x.1 y.1 = true) params ∧
      ∀ kv ∈ params, '&' ∉ kv.1 ∧ '=' ∉ kv.1 ∧ '&' ∉ kv.2)
    (h : parseDsnBody driver protocol0 params body = some d) : DsnWF d := by
  unfold parseDsnBody at h
  cases hat : splitOnFirst '@' body with
  | none =>
    rw [hat] at h
    dsimp only at h
    simp only [Option.pure_def, Option.bind_eq_bind, Option.some_bind] at h
    have hnb : '@' ∉ body := splitOnFirst_eq_none.mp hat
    cases hep : parseEndpoint body with
    | empty =>
      rw [hep] at h
      unfold endpointAssemble at h
      simp only [Option.some.injEq] at h
      subst h
      refine ⟨hdrv, hproto, ?_, ?_, ?_, ?_, ?_, hpar⟩
      · intro u hu
        exact absurd hu (by simp)
      · intro pw hpw
        exact absurd hpw (by simp)
      · intro a ha
        exact absurd ha (by simp)
      · intro db hdb
        exact absurd hdb (by simp)
      · intro f hf
        exact absurd hf (by simp)
    | inlineProto proto addrs db =>
      rw [hep] at h
      unfold endpointAssemble at h
      simp only [Option.some.injEq] at h
      subst h
      have hti := tryInline_wf (parseEndpoint_inline hep)
      refine ⟨hdrv, ?_, ?_, ?_, hti.2.1, ?_, ?_, hpar⟩
      · intro p hp
        simp only [Option.some.injEq] at hp
        subst hp
        exact hti.1
      · intro u hu
        exact absurd hu (by simp)
      · intro pw hpw
        exact absurd hpw (by simp)
      · intro db' hdb
        obtain ⟨hok, hsub⟩ := hti.2.2 db' hdb
        exact ⟨hok, fun hq => hqb (hsub _ hq), fun _ _ hq => hnb (hsub _ hq)⟩
      · intro f hf
        exact absurd hf (by simp)
    | addrsDb addrs db =>
      rw [hep] at h
      unfold endpointAssemble at h
      simp only [Option.some.injEq] at h
      subst h
      have htd := tryAddrsDb_wf (parseEndpoint_addrsDb hep)
      refine ⟨hdrv, hproto, ?_, ?_, htd.1, ?_, ?_, hpar⟩
      · intro u hu
        exact absurd hu (by simp)
      · intro pw hpw
        exact absurd hpw (by simp)
      · intro db' hdb
        obtain ⟨hok, hsub⟩ := htd.2 db' hdb
        exact ⟨hok, fun hq => hqb (hsub _ hq), fun _ _ hq => hnb (hsub _ hq)⟩
      · intro f hf
        exact absurd hf (by simp)
    | frag f =>
      rw [hep] at h
      unfold endpointAssemble at h
      simp only [Option.some.injEq] at h
      subst h
      obtain ⟨hfe, hne, hti, htd⟩ := parseEndpoint_frag hep
      subst hfe
      refine ⟨hdrv, hproto, ?_, ?_, ?_, ?_, ?_, hpar⟩
      · intro u hu
        exact absurd hu (by simp)
      · intro pw hpw
        exact absurd hpw (by simp)
      · intro a ha
        exact absurd ha (by simp)
      · intro db hdb
        exact absurd hdb (by simp)
      · intro f' hf'
        simp only [Option.some.injEq] at hf'
        subst hf'
        exact ⟨hne, hqb, rfl, rfl, fun _ _ => hnb, hti, htd⟩
  | some pru =>
    obtain ⟨u, e⟩ := pru
    rw [hat] at h
    dsimp only at h
    obtain ⟨hbody, hau⟩ := splitOnFirst_spec hat
    have hmu : ∀ c ∈ u, c ∈ body := by
      intro c hc
      rw [hbody]
      exact List.mem_append.mpr (Or.inl hc)
    have hme : ∀ c ∈ e, c ∈ body := by
      intro c hc
      rw [hbody]
      exact List.mem_append.mpr (Or.inr (List.mem_cons_of_mem _ hc))
    have hqu : '?' ∉ u := fun hq => hqb (hmu _ hq)
    have hqe : '?' ∉ e := fun hq => hqb (hme _ hq)
    cases hui : parseUserinfo u with
    | none =>
      rw [hui] at h
      exact absurd h (by simp)
    | some pr =>
      obtain ⟨un, pw⟩ := pr
      rw [hui] at h
      simp only [Option.bind_eq_bind, Option.some_bind] at h
      have huw := parseUserinfo_wf hui
      have hviaU : ∀ (x : List Char), (∀ c ∈ x, c ∈ u) → '@' ∉ x ∧ '?' ∉ x :=
        fun x hx => ⟨fun hq => hau (hx _ hq), fun hq => hqu (hx _ hq)⟩
      cases hep : parseEndpoint e with
      | empty =>
        rw [hep] at h
        unfold endpointAssemble at h
        simp only [Option.some.injEq] at h
        subst h
        refine ⟨hdrv, hproto, ?_, ?_, ?_, ?_, ?_, hpar⟩
        · intro x hx
          obtain ⟨hne, hcol, hsub⟩ := huw.1 x hx
          exact ⟨hne, hcol, (hviaU x hsub).1, (hviaU x hsub).2⟩
        · intro x hx
          exact hviaU x (huw.2.1 x hx)
        · intro a ha
          exact absurd ha (by simp)
        · intro db hdb
          exact absurd hdb (by simp)
        · intro f hf
          exact absurd hf (by simp)
      | inlineProto proto addrs db =>
        rw [hep] at h
        unfold endpointAssemble at h
        simp only [Option.some.injEq] at h
        subst h
        have hti := tryInline_wf (parseEndpoint_inline hep)
        refine ⟨hdrv, ?_, ?_, ?_, hti.2.1, ?_, ?_, hpar⟩
        · intro p hp
          simp only [Option.some.injEq] at hp
          subst hp
          exact hti.1
        · intro x hx
          obtain ⟨hne, hcol, hsub⟩ := huw.1 x hx
          exact ⟨hne, hcol, (hviaU x hsub).1, (hviaU x hsub).2⟩
        · intro x hx
          exact hviaU x (huw.2.1 x hx)
        · intro db' hdb
          obtain ⟨hok, hsub⟩ := hti.2.2 db' hdb
          refine ⟨hok, fun hq => hqe (hsub _ hq), ?_⟩
          intro hun hpw
          rcases huw.2.2 with hk | hk
          · exact absurd hun hk
          · exact absurd hpw hk
        · intro f hf
          exact absurd hf (by simp)
      | addrsDb addrs db =>
        rw [hep] at h
        unfold endpointAssemble at h
        simp only [Option.some.injEq] at h
        subst h
        have htd := tryAddrsDb_wf (parseEndpoint_addrsDb hep)
        refine ⟨hdrv, hproto, ?_, ?_, htd.1, ?_, ?_, hpar⟩
        · intro x hx
          obtain ⟨hne, hcol, hsub⟩ := huw.1 x hx
          exact ⟨hne, hcol, (hviaU x hsub).1, (hviaU x hsub).2⟩
        · intro x hx
          exact hviaU x (huw.2.1 x hx)
        · intro db' hdb
          obtain ⟨hok, hsub⟩ := htd.2 db' hdb
          refine ⟨hok, fun hq => hqe (hsub _ hq), ?_⟩
          intro hun hpw
          rcases huw.2.2 with hk | hk
          · exact absurd hun hk
          · exact absurd hpw hk
        · intro f hf
          exact absurd hf (by simp)
      | frag f =>
        rw [hep] at h
        unfold endpointAssemble at h
        simp only [Option.some.injEq] at h
        subst h
        obtain ⟨hfe, hne, hti, htd⟩ := parseEndpoint_frag hep
        subst hfe
        refine ⟨hdrv, hproto, ?_, ?_, ?_, ?_, ?_, hpar⟩
        · intro x hx
          obtain ⟨hne', hcol, hsub⟩ := huw.1 x hx
          exact ⟨hne', hcol, (hviaU x hsub).1, (hviaU x hsub).2⟩
        · intro x hx
          exact hviaU x (huw.2.1 x hx)
        · intro a ha
          exact absurd ha (by simp)
        · intro db hdb
          exact absurd hdb (by simp)
        · intro f' hf'
          simp only [Option.some.injEq] at hf'
          subst hf'
          refine ⟨hne, hqe, rfl, rfl, ?_, hti, htd⟩
          intro hun hpw
          rcases huw.2.2 with hk | hk
          · exact absurd hun hk
          · exact absurd hpw hk

theorem parseDsn_wf {s : List Char} {d : Dsn} (h : parseDsn s = some d) :
    DsnWF d := by
  unfold parseDsn at h
  cases hsp : splitSchemeSep s with
  | none =>
    rw [hsp] at h
    exact absurd h (by simp)
  | some pr1 =>
  obtain ⟨schemeStr, rest⟩ := pr1
  rw [hsp] at h
  simp only [Option.bind_eq_bind, Option.some_bind] at h
  cases hsc : parseScheme schemeStr with
  | none =>
    rw [hsc] at h
    exact absurd h (by simp)
  | some pr2 =>
  obtain ⟨driver, protocol0⟩ := pr2
  rw [hsc] at h
  simp only [Option.bind_eq_bind, Option.some_bind] at h
  have hdw := parseScheme_wf hsc
  unfold parseDsnRest at h
  cases hq : splitOnFirst '?' rest with
  | none =>
    rw [hq] at h
    dsimp only at h
    simp only [Option.pure_def, Option.bind_eq_bind, Option.some_bind] at h
    exact parseDsnBody_wf hdw.1 hdw.2 (splitOnFirst_eq_none.mp hq)
      ⟨by simp, by simp⟩ h
  | some pr3 =>
    obtain ⟨b, ps⟩ := pr3
    rw [hq] at h
    dsimp only at h
    cases hpp : parseParams ps with
    | none =>
      rw [hpp] at h
      exact absurd h (by simp)
    | some params =>
      rw [hpp] at h
      simp only [Option.bind_eq_bind, Option.some_bind] at h
      exact parseDsnBody_wf hdw.1 hdw.2 (splitOnFirst_spec hq).2
        (parseParams_wf hpp) h

/-! ### C3: character-class helpers for the display direction -/

theorem contains_false {l : List Char} {a : Char} (h : a ∉ l) :
    l.contains a = false := by
  cases hc : l.contains a with
  | false => rfl
  | true => exact absurd (List.mem_of_elem_eq_true hc) h

theorem splitOnFirst_append_left {c : Char} : ∀ {A : List Char} (B : List Char),
    c ∉ A → splitOnFirst c (A ++ B) =
      (splitOnFirst c B).map (fun p => (A ++ p.1, p.2)) := by
  intro A
  induction A with
  | nil =>
    intro B _
    cases hB : splitOnFirst c B <;> simp [hB]
  | cons x A' ih =>
    intro B hx
    rw [List.cons_append, splitOnFirst,
      if_neg (fun he => hx (by rw [he]; exact List.mem_cons_self _ _)),
      ih B (fun hm => hx (List.mem_cons_of_mem _ hm))]
    cases hB : splitOnFirst c B <;> simp [hB]

theorem notmem_join {x sep : Char} : ∀ {ts : List (List Char)}, x ≠ sep →
    (∀ t ∈ ts, x ∉ t) → x ∉ joinChar sep ts := by
  intro ts
  induction ts with
  | nil =>
    intro _ _
    simp [joinChar]
  | cons t rest ih =>
    intro hx hts
    cases rest with
    | nil => simpa [joinChar] using hts t (by simp)
    | cons t2 ts2 =>
      rw [joinChar_cons]
      intro hmem
      rcases List.mem_append.mp hmem with h | h
      · exact hts t (by simp) h
      rcases List.mem_cons.mp h with h | h
      · exact hx h
      · exact ih hx (fun t' ht' => hts t' (List.mem_cons_of_mem _ ht')) h

theorem hostOk_mem {s : List Char} (h : hostOk s = true) :
    s ≠ [] ∧ ∀ c ∈ s, hostChar c = true := by
  unfold hostOk at h
  cases s with
  | nil => exact absurd h (by simp)
  | cons c rest =>
    rw [Bool.and_eq_true] at h
    exact ⟨by simp, fun c' hc' => List.all_eq_true.mp h.2 c' hc'⟩

theorem dbOk_ne_nil {s : List Char} (h : dbOk s = true) : s ≠ [] := by
  unfold dbOk at h
  cases s with
  | nil => exact absurd h (by simp)
  | cons c rest => simp

theorem dbOk_no_slash {s : List Char} (h : dbOk s = true) : '/' ∉ s := by
  unfold dbOk at h
  rw [Bool.and_eq_true] at h
  intro hm
  have := List.all_eq_true.mp h.2 '/' hm
  simp at this

theorem addr_display_chars {a : Address} (hwf : AddressWF a) :
    ∀ c ∈ a.display, hostChar c = true ∨ c.isDigit = true ∨ c = ':' ∨
      pathChar c = true := by
  obtain ⟨ho, po, pa⟩ := a
  intro c hc
  match ho, po, pa with
  | some h, none, none =>
    exact Or.inl ((hostOk_mem hwf).2 c hc)
  | some h, some p, none =>
    simp only [Address.display] at hc
    rcases List.mem_append.mp hc with h1 | h1
    · exact Or.inl ((hostOk_mem hwf.1).2 c h1)
    rcases List.mem_cons.mp h1 with h1 | h1
    · exact Or.inr (Or.inr (Or.inl h1))
    · exact Or.inr (Or.inl (natToDigits_all_digit p c h1))
  | none, some p, none =>
    simp only [Address.display] at hc
    rcases List.mem_cons.mp hc with h1 | h1
    · exact Or.inr (Or.inr (Or.inl h1))
    · exact Or.inr (Or.inl (natToDigits_all_digit p c h1))
  | none, none, some path =>
    exact Or.inr (Or.inr (Or.inr (encodePath_all_pathChar path c hc)))
  | none, none, none => exact hwf.elim
  | some h, none, some q => exact hwf.elim
  | none, some p, some q => exact hwf.elim
  | some h, some p, some q => exact hwf.elim

theorem addr_display_not_mem {a : Address} {x : Char} (hwf : AddressWF a)
    (h1 : hostChar x = false) (h2 : x.isDigit = false) (h3 : x ≠ ':')
    (h4 : pathChar x = false) : x ∉ a.display := by
  intro hm
  rcases addr_display_chars hwf x hm with h | h | h | h
  · rw [h1] at h
    exact absurd h (by simp)
  · rw [h2] at h
    exact absurd h (by simp)
  · exact h3 h
  · rw [h4] at h
    exact absurd h (by simp)

theorem addr_display_ne_nil {a : Address} (hwf : AddressWF a) :
    a.display ≠ [] := by
  obtain ⟨ho, po, pa⟩ := a
  match ho, po, pa with
  | some h, none, none => exact (hostOk_mem hwf).1
  | some h, some p, none =>
    simp only [Address.display]
    simp [List.append_eq_nil]
  | none, some p, none =>
    simp [Address.display]
  | none, none, some path =>
    exact encodePath_ne_nil hwf.1
  | none, none, none => exact hwf.elim
  | some h, none, some q => exact hwf.elim
  | none, some p, some q => exact hwf.elim
  | some h, some p, some q => exact hwf.elim

theorem parseAddress_display {a : Address} (hwf : AddressWF a)
    (hst : a.stablePath = true) : parseAddress a.display = some a := by
  obtain ⟨ho, po, pa⟩ := a
  match ho, po, pa with
  | some h, none, none =>
    show parseAddress h = some ⟨some h, none, none⟩
    have hmem := hostOk_mem hwf
    have hnm : '%' ∉ h := fun hm => absurd (hmem.2 '%' hm) (by decide)
    have hcol : ':' ∉ h := fun hm => absurd (hmem.2 ':' hm) (by decide)
    unfold parseAddress
    rw [if_neg (by rw [contains_false hnm]; simp)]
    rw [splitOnFirst_none hcol]
    dsimp only
    rw [if_pos (show hostOk h = true from hwf)]
  | some h, some p, none =>
    show parseAddress (h ++ ':' :: natToDigits p) = some ⟨some h, some p, none⟩
    have hmem := hostOk_mem hwf.1
    have hcol : ':' ∉ h := fun hm => absurd (hmem.2 ':' hm) (by decide)
    have hnm : '%' ∉ h ++ ':' :: natToDigits p := by
      intro hm
      rcases List.mem_append.mp hm with h1 | h1
      · exact absurd (hmem.2 '%' h1) (by decide)
      rcases List.mem_cons.mp h1 with h1 | h1
      · exact absurd h1 (by decide)
      · exact absurd (natToDigits_all_digit p '%' h1) (by decide)
    unfold parseAddress
    rw [if_neg (by rw [contains_false hnm]; simp)]
    rw [splitOnFirst_append _ hcol]
    dsimp only
    rw [if_pos ⟨natToDigits_ne_nil p, List.all_eq_true.mpr (natToDigits_all_digit p),
      by rw [digitsToNat_natToDigits]; exact hwf.2⟩]
    rw [if_neg hmem.1, if_pos (show hostOk h = true from hwf.1), digitsToNat_natToDigits]
  | none, some p, none =>
    show parseAddress (':' :: natToDigits p) = some ⟨none, some p, none⟩
    have hnm : '%' ∉ ':' :: natToDigits p := by
      intro hm
      rcases List.mem_cons.mp hm with h1 | h1
      · exact absurd h1 (by decide)
      · exact absurd (natToDigits_all_digit p '%' h1) (by decide)
    unfold parseAddress
    rw [if_neg (by rw [contains_false hnm]; simp)]
    rw [splitOnFirst, if_pos rfl]
    dsimp only
    rw [if_pos ⟨natToDigits_ne_nil p, List.all_eq_true.mpr (natToDigits_all_digit p),
      by rw [digitsToNat_natToDigits]; exact hwf⟩]
    rw [if_pos rfl, digitsToNat_natToDigits]
  | none, none, some path =>
    show parseAddress (encodePath path) = some ⟨none, none, some path⟩
    have hct : (encodePath path).contains '%' = true :=
      List.elem_eq_true_of_mem (encodePath_mem_pct hst)
    unfold parseAddress
    rw [if_pos hct]
    rw [if_pos ⟨encodePath_ne_nil hwf.1,
      List.all_eq_true.mpr (encodePath_all_pathChar path)⟩]
    rw [pctDecode_encodePath path hwf.2]
  | none, none, none => exact hwf.elim
  | some h, none, some q => exact hwf.elim
  | none, some p, some q => exact hwf.elim
  | some h, some p, some q => exact hwf.elim

theorem addrsPart_ne_nil {addrs : List Address} (hne : addrs ≠ [])
    (hwf : ∀ a ∈ addrs, AddressWF a) : addrsPart addrs ≠ [] := by
  match addrs with
  | [] => exact absurd rfl hne
  | [a] => exact addr_display_ne_nil (hwf a (by simp))
  | a :: b :: rest =>
    show joinChar ',' (a.display :: b.display :: (rest.map Address.display)) ≠ []
    rw [joinChar_cons]
    simp [List.append_eq_nil]

theorem addrsPart_not_mem {addrs : List Address} {x : Char}
    (hwf : ∀ a ∈ addrs, AddressWF a) (h1 : hostChar x = false)
    (h2 : x.isDigit = false) (h3 : x ≠ ':') (h4 : pathChar x = false)
    (h5 : x ≠ ',') : x ∉ addrsPart addrs := by
  unfold addrsPart
  refine notmem_join h5 ?_
  intro t ht
  obtain ⟨a, ha, rfl⟩ := List.mem_map.mp ht
  exact addr_display_not_mem (hwf a ha) h1 h2 h3 h4

theorem parseAddresses_display {addrs : List Address} (hne : addrs ≠ [])
    (hwf : ∀ a ∈ addrs, AddressWF a)
    (hst : ∀ a ∈ addrs, a.stablePath = true) :
    parseAddresses (addrsPart addrs) = some addrs := by
  unfold parseAddresses
  rw [if_neg (addrsPart_ne_nil hne hwf)]
  show (splitAll ',' (joinChar ',' (addrs.map Address.display))).mapM parseAddress
    = some addrs
  rw [splitAll_join _ _ (by simp [hne]) ?tok]
  case tok =>
    intro t ht
    obtain ⟨a, ha, rfl⟩ := List.mem_map.mp ht
    exact addr_display_not_mem (hwf a ha) (by decide) (by decide) (by decide)
      (by decide)
  exact mapM_map_id _ _ _ (fun a ha => parseAddress_display (hwf a ha) (hst a ha))

theorem parseParams_display {params : List (List Char × List Char)}
    (hne : params ≠ [])
    (hsort : List.Pairwise (fun x y => charListLt x.1 y.1 = true) params)
    (hmem : ∀ kv ∈ params, '&' ∉ kv.1 ∧ '=' ∉ kv.1 ∧ '&' ∉ kv.2) :
    parseParams (joinChar '&' (params.map (fun kv => kv.1 ++ '=' :: kv.2)))
      = some params := by
  have hjne : joinChar '&' (params.map (fun kv => kv.1 ++ '=' :: kv.2)) ≠ [] := by
    match params with
    | [] => exact absurd rfl hne
    | [kv] =>
      show kv.1 ++ '=' :: kv.2 ≠ []
      simp [List.append_eq_nil]
    | kv :: kv2 :: rest =>
      show joinChar '&' ((kv.1 ++ '=' :: kv.2) :: (kv2.1 ++ '=' :: kv2.2) ::
        (rest.map (fun kv => kv.1 ++ '=' :: kv.2))) ≠ []
      rw [joinChar_cons]
      simp [List.append_eq_nil]
  unfold parseParams
  rw [if_neg hjne]
  rw [splitAll_join _ _ (by simp [hne]) ?tok]
  case tok =>
    intro t ht
    obtain ⟨kv, hkv, rfl⟩ := List.mem_map.mp ht
    intro hm
    rcases List.mem_append.mp hm with h | h
    · exact (hmem kv hkv).1 h
    rcases List.mem_cons.mp h with h | h
    · exact absurd h (by decide)
    · exact (hmem kv hkv).2.2 h
  rw [mapM_map_id _ _ _ ?pair]
  case pair =>
    intro kv hkv
    unfold parsePair
    rw [splitOnFirst_append _ (hmem kv hkv).2.1]
    simp
  simp only [Option.map_some', Option.some.injEq]
  rw [foldl_btreeInsert_sorted params [] hsort (by simp)]
  simp

theorem parseScheme_display {driver : List Char} {proto : Option (List Char)}
    (hd : driver ≠ [] ∧ driver.all identChar = true)
    (hp : ∀ p, proto = some p → p ≠ [] ∧ p.all identChar = true) :
    parseScheme (driver ++ protoPart proto) = some (driver, proto) := by
  have hplus : '+' ∉ driver := fun hm =>
    absurd (List.all_eq_true.mp hd.2 '+' hm) (by decide)
  cases proto with
  | none =>
    show parseScheme (driver ++ []) = some (driver, none)
    rw [List.append_nil]
    unfold parseScheme
    rw [splitOnFirst_none hplus]
    dsimp only
    rw [if_pos ⟨hd.1, hd.2⟩]
  | some p =>
    show parseScheme (driver ++ '+' :: p) = some (driver, some p)
    unfold parseScheme
    rw [splitOnFirst_append _ hplus]
    dsimp only
    rw [if_pos ⟨hd.1, hd.2, (hp p rfl).1, (hp p rfl).2⟩]

theorem tryInline_append_none {A D : List Char} (hA : '(' ∉ A)
    (hD : D = [] ∨ ∃ db, D = '/' :: db) : tryInline (A ++ D) = none := by
  rcases hD with rfl | ⟨db, rfl⟩
  · rw [List.append_nil]
    unfold tryInline
    rw [splitOnFirst_none hA]
  · unfold tryInline
    rw [splitOnFirst_append_left _ hA]
    rw [splitOnFirst, if_neg (by decide)]
    cases hsp : splitOnFirst '(' db with
    | none => rfl
    | some pr =>
      obtain ⟨x, y⟩ := pr
      simp only [Option.map_some']
      rw [if_neg]
      intro hcon
      have := List.all_eq_true.mp hcon.2 '/' (by simp)
      exact absurd this (by decide)

theorem tryAddrsDb_display {A : List Char} {addrs : List Address}
    {dbo : Option (List Char)} (hA : '/' ∉ A)
    (hpa : parseAddresses A = some addrs)
    (hdb : ∀ db, dbo = some db → dbOk db = true) :
    tryAddrsDb (A ++ dbPart dbo) = some (addrs, dbo) := by
  cases dbo with
  | none =>
    show tryAddrsDb (A ++ []) = some (addrs, none)
    rw [List.append_nil]
    unfold tryAddrsDb
    rw [splitOnFirst_none hA]
    dsimp only
    rw [hpa]
    simp
  | some db =>
    show tryAddrsDb (A ++ '/' :: db) = some (addrs, some db)
    unfold tryAddrsDb
    rw [splitOnFirst_append _ hA]
    dsimp only
    rw [hpa]
    dsimp only
    have hok := hdb db rfl
    rw [if_neg (dbOk_ne_nil hok), if_pos hok]

theorem parseEndpoint_display_frag {f : List Char} (hne : f ≠ [])
    (h1 : tryInline f = none) (h2 : tryAddrsDb f = none) :
    parseEndpoint f = .frag f := by
  unfold parseEndpoint
  rw [if_neg hne, h1]
  dsimp only
  rw [h2]

theorem parseEndpoint_display_addrs {A : List Char} {addrs : List Address}
    {dbo : Option (List Char)} (hA1 : '(' ∉ A) (hA2 : '/' ∉ A)
    (hne : A ++ dbPart dbo ≠ [])
    (hpa : parseAddresses A = some addrs)
    (hdb : ∀ db, dbo = some db → dbOk db = true) :
    parseEndpoint (A ++ dbPart dbo) = .addrsDb addrs dbo := by
  have hD : dbPart dbo = [] ∨ ∃ db, dbPart dbo = '/' :: db := by
    cases dbo with
    | none => exact Or.inl rfl
    | some db => exact Or.inr ⟨db, rfl⟩
  unfold parseEndpoint
  rw [if_neg hne, tryInline_append_none hA1 hD]
  dsimp only
  rw [tryAddrsDb_display hA2 hpa hdb]

theorem userinfoPart_not_mem {un pw : Option (List Char)} {x : Char}
    (hu : ∀ u, un = some u → x ∉ u) (hp : ∀ p, pw = some p → x ∉ p)
    (h1 : x ≠ ':') (h2 : x ≠ '@') : x ∉ userinfoPart un pw := by
  cases un with
  | none =>
    cases pw with
    | none => simp [userinfoPart]
    | some p =>
      show x ∉ ':' :: p ++ ['@']
      intro hm
      rcases List.mem_cons.mp hm with h | h
      · exact h1 h
      rcases List.mem_append.mp h with h | h
      · exact hp p rfl h
      · simp at h
        exact h2 h
  | some u =>
    cases pw with
    | none =>
      show x ∉ u ++ ['@']
      intro hm
      rcases List.mem_append.mp hm with h | h
      · exact hu u rfl h
      · simp at h
        exact h2 h
    | some p =>
      show x ∉ (u ++ ':' :: p) ++ ['@']
      intro hm
      rcases List.mem_append.mp hm with h | h
      · rcases List.mem_append.mp h with h | h
        · exact hu u rfl h
        · rcases List.mem_cons.mp h with h | h
          · exact h1 h
          · exact hp p rfl h
      · simp at h
        exact h2 h

theorem dbPart_not_mem {dbo : Option (List Char)} {x : Char}
    (hd : ∀ v, dbo = some v → x ∉ v) (h1 : x ≠ '/') : x ∉ dbPart dbo := by
  cases dbo with
  | none => simp [dbPart]
  | some v =>
    show x ∉ '/' :: v
    intro hm
    rcases List.mem_cons.mp hm with h | h
    · exact h1 h
    · exact hd v rfl h

theorem fragPart_not_mem {fo : Option (List Char)} {x : Char}
    (hf : ∀ v, fo = some v → x ∉ v) : x ∉ fragPart fo := by
  cases fo with
  | none => simp [fragPart]
  | some v =>
    show x ∉ v
    exact hf v rfl

theorem endpointAssemble_display {driver : List Char}
    {proto un pw frag db : Option (List Char)} {addrs : List Address}
    {params : List (List Char × List Char)}
    (haddr : ∀ a ∈ addrs, AddressWF a)
    (hst : ∀ a ∈ addrs, a.stablePath = true)
    (hdbok : ∀ x, db = some x → dbOk x = true)
    (hfr : ∀ f, frag = some f → f ≠ [] ∧ addrs = [] ∧ db = none ∧
      tryInline f = none ∧ tryAddrsDb f = none) :
    endpointAssemble driver proto un pw params
      (parseEndpoint (addrsPart addrs ++ dbPart db ++ fragPart frag))
      = some ⟨driver, proto, un, pw, addrs, frag, db, params⟩ := by
  cases frag with
  | some f =>
    obtain ⟨hne, haeq, hdeq, hti, htd⟩ := hfr f rfl
    subst haeq
    subst hdeq
    show endpointAssemble driver proto un pw params (parseEndpoint f) = _
    rw [parseEndpoint_display_frag hne hti htd]
    rfl
  | none =>
    rw [show fragPart (none : Option (List Char)) = [] from rfl, List.append_nil]
    by_cases hae : addrs = []
    · subst hae
      cases db with
      | none =>
        show endpointAssemble driver proto un pw params (parseEndpoint []) = _
        rw [show parseEndpoint [] = .empty from rfl]
        rfl
      | some dbv =>
        have h := @parseEndpoint_display_addrs [] [] (some dbv)
          (by simp) (by simp) (by simp [dbPart]) (by rfl) hdbok
        rw [show addrsPart [] = [] from rfl]
        rw [show ([] : List Char) ++ dbPart (some dbv) = dbPart (some dbv)
          from rfl] at h ⊢
        rw [h]
        rfl
    · have hA := parseAddresses_display hae haddr hst
      have h := parseEndpoint_display_addrs
        (addrsPart_not_mem haddr (by decide) (by decide) (by decide) (by decide)
          (by decide))
        (addrsPart_not_mem haddr (by decide) (by decide) (by decide) (by decide)
          (by decide))
        (fun hcon => (addrsPart_ne_nil hae haddr) (List.append_eq_nil.mp hcon).1)
        hA hdbok
      rw [h]
      rfl

theorem body_append_not_mem {un pw : Option (List Char)} {addrs : List Address}
    {db frag : Option (List Char)} {x : Char}
    (h1 : x ∉ userinfoPart un pw) (h2 : x ∉ addrsPart addrs)
    (h3 : x ∉ dbPart db) (h4 : x ∉ fragPart frag) :
    x ∉ userinfoPart un pw ++ addrsPart addrs ++ dbPart db ++ fragPart frag := by
  intro hm
  rcases List.mem_append.mp hm with h | h
  · rcases List.mem_append.mp h with h | h
    · rcases List.mem_append.mp h with h | h
      · exact h1 h
      · exact h2 h
    · exact h3 h
  · exact h4 h

theorem parseDsnBody_display {driver : List Char}
    {proto un pw frag db : Option (List Char)} {addrs : List Address}
    {params : List (List Char × List Char)}
    (hwf : DsnWF ⟨driver, proto, un, pw, addrs, frag, db, params⟩)
    (hst : ∀ a ∈ addrs, a.stablePath = true) :
    parseDsnBody driver proto params
      (userinfoPart un pw ++ addrsPart addrs ++ dbPart db ++ fragPart frag)
      = some ⟨driver, proto, un, pw, addrs, frag, db, params⟩ := by
  obtain ⟨hdrv, hproto, hun, hpw, haddr, hdb, hfrag, hpar⟩ := hwf
  have hdbok : ∀ x, db = some x → dbOk x = true := fun x hx => (hdb x hx).1
  have hfr : ∀ f, frag = some f → f ≠ [] ∧ addrs = [] ∧ db = none ∧
      tryInline f = none ∧ tryAddrsDb f = none := fun f hf =>
    ⟨(hfrag f hf).1, (hfrag f hf).2.2.1, (hfrag f hf).2.2.2.1,
      (hfrag f hf).2.2.2.2.2.1, (hfrag f hf).2.2.2.2.2.2⟩
  have hatA : '@' ∉ addrsPart addrs :=
    addrsPart_not_mem haddr (by decide) (by decide) (by decide) (by decide)
      (by decide)
  cases un with
  | none =>
    cases pw with
    | none =>
      have hnb : '@' ∉ userinfoPart none none ++ addrsPart addrs ++ dbPart db
          ++ fragPart frag :=
        body_append_not_mem (by simp [userinfoPart]) hatA
          (dbPart_not_mem (fun v hv => (hdb v hv).2.2 rfl rfl) (by decide))
          (fragPart_not_mem (fun v hv => (hfrag v hv).2.2.2.2.1 rfl rfl))
      unfold parseDsnBody
      rw [splitOnFirst_none hnb]
      dsimp only
      simp only [Option.pure_def, Option.bind_eq_bind, Option.some_bind]
      show endpointAssemble driver proto none none params
        (parseEndpoint (addrsPart addrs ++ dbPart db ++ fragPart frag)) = _
      exact endpointAssemble_display haddr hst hdbok hfr
    | some p =>
      have hap : '@' ∉ ':' :: p := by
        intro hm
        rcases List.mem_cons.mp hm with h | h
        · exact absurd h (by decide)
        · exact (hpw p rfl).1 h
      have hassoc : userinfoPart none (some p) ++ addrsPart addrs ++ dbPart db
          ++ fragPart frag = (':' :: p) ++ '@' ::
            (addrsPart addrs ++ dbPart db ++ fragPart frag) := by
        show (':' :: p) ++ ['@'] ++ addrsPart addrs ++ dbPart db ++ fragPart frag
          = _
        simp [List.append_assoc]
      have huser : parseUserinfo (':' :: p) = some (none, some p) := by
        unfold parseUserinfo
        rw [if_neg (by simp)]
        rw [splitOnFirst, if_pos rfl]
        dsimp only
        rw [if_pos rfl]
      unfold parseDsnBody
      rw [hassoc, splitOnFirst_append _ hap]
      dsimp only
      rw [huser]
      simp only [Option.bind_eq_bind, Option.some_bind]
      show endpointAssemble driver proto none (some p) params
        (parseEndpoint (addrsPart addrs ++ dbPart db ++ fragPart frag)) = _
      exact endpointAssemble_display haddr hst hdbok hfr
  | some u =>
    cases pw with
    | none =>
      have hau : '@' ∉ u := (hun u rfl).2.2.1
      have hassoc : userinfoPart (some u) none ++ addrsPart addrs ++ dbPart db
          ++ fragPart frag = u ++ '@' ::
            (addrsPart addrs ++ dbPart db ++ fragPart frag) := by
        show u ++ ['@'] ++ addrsPart addrs ++ dbPart db ++ fragPart frag = _
        simp [List.append_assoc]
      have huser : parseUserinfo u = some (some u, none) := by
        unfold parseUserinfo
        rw [if_neg (hun u rfl).1]
        rw [splitOnFirst_none (hun u rfl).2.1]
      unfold parseDsnBody
      rw [hassoc, splitOnFirst_append _ hau]
      dsimp only
      rw [huser]
      simp only [Option.bind_eq_bind, Option.some_bind]
      show endpointAssemble driver proto (some u) none params
        (parseEndpoint (addrsPart addrs ++ dbPart db ++ fragPart frag)) = _
      exact endpointAssemble_display haddr hst hdbok hfr
    | some p =>
      have hau : '@' ∉ u ++ ':' :: p := by
        intro hm
        rcases List.mem_append.mp hm with h | h
        · exact (hun u rfl).2.2.1 h
        rcases List.mem_cons.mp h with h | h
        · exact absurd h (by decide)
        · exact (hpw p rfl).1 h
      have hassoc : userinfoPart (some u) (some p) ++ addrsPart addrs
          ++ dbPart db ++ fragPart frag = (u ++ ':' :: p) ++ '@' ::
            (addrsPart addrs ++ dbPart db ++ fragPart frag) := by
        show (u ++ ':' :: p) ++ ['@'] ++ addrsPart addrs ++ dbPart db
          ++ fragPart frag = _
        simp [List.append_assoc]
      have huser : parseUserinfo (u ++ ':' :: p) = some (some u, some p) := by
        unfold parseUserinfo
        rw [if_neg (by simp [List.append_eq_nil])]
        rw [splitOnFirst_append _ (hun u rfl).2.1]
        dsimp only
        rw [if_neg (hun u rfl).1]
      unfold parseDsnBody
      rw [hassoc, splitOnFirst_append _ hau]
      dsimp only
      rw [huser]
      simp only [Option.bind_eq_bind, Option.some_bind]
      show endpointAssemble driver proto (some u) (some p) params
        (parseEndpoint (addrsPart addrs ++ dbPart db ++ fragPart frag)) = _
      exact endpointAssemble_display haddr hst hdbok hfr

theorem parseDsnRest_display {driver : List Char}
    {proto un pw frag db : Option (List Char)} {addrs : List Address}
    {params : List (List Char × List Char)}
    (hwf : DsnWF ⟨driver, proto, un, pw, addrs, frag, db, params⟩)
    (hst : ∀ a ∈ addrs, a.stablePath = true) :
    parseDsnRest driver proto
      (userinfoPart un pw ++ addrsPart addrs ++ dbPart db ++ fragPart frag
        ++ paramsPart params)
      = some ⟨driver, proto, un, pw, addrs, frag, db, params⟩ := by
  obtain ⟨hdrv, hproto, hun, hpw, haddr, hdb, hfrag, hpar⟩ := hwf
  have hq : '?' ∉ userinfoPart un pw ++ addrsPart addrs ++ dbPart db
      ++ fragPart frag :=
    body_append_not_mem
      (userinfoPart_not_mem (fun u' hu' => (hun u' hu').2.2.2)
        (fun p' hp' => (hpw p' hp').2) (by decide) (by decide))
      (addrsPart_not_mem haddr (by decide) (by decide) (by decide) (by decide)
        (by decide))
      (dbPart_not_mem (fun v hv => (hdb v hv).2.1) (by decide))
      (fragPart_not_mem (fun v hv => (hfrag v hv).2.1))
  by_cases hpe : params = []
  · subst hpe
    rw [show paramsPart [] = [] from rfl, List.append_nil]
    unfold parseDsnRest
    rw [splitOnFirst_none hq]
    dsimp only
    simp only [Option.pure_def, Option.bind_eq_bind, Option.some_bind]
    exact parseDsnBody_display ⟨hdrv, hproto, hun, hpw, haddr, hdb, hfrag, hpar⟩
      hst
  · rw [show paramsPart params = '?' ::
      joinChar '&' (params.map (fun kv => kv.1 ++ '=' :: kv.2)) from by
        unfold paramsPart
        rw [if_neg (by simp [hpe])]]
    unfold parseDsnRest
    rw [splitOnFirst_append _ hq]
    dsimp only
    rw [parseParams_display hpe hpar.1 hpar.2]
    simp only [Option.bind_eq_bind, Option.some_bind]
    exact parseDsnBody_display ⟨hdrv, hproto, hun, hpw, haddr, hdb, hfrag, hpar⟩
      hst

theorem parseDsn_display {d : Dsn} (hwf : DsnWF d)
    (hst : ∀ a ∈ d.addresses, a.stablePath = true) :
    parseDsn (Dsn.display d) = some d := by
  obtain ⟨driver, proto, un, pw, addrs, frag, db, params⟩ := d
  have hcolon : ∀ x ∈ driver ++ protoPart proto, x ≠ ':' := by
    intro x hx
    rcases List.mem_append.mp hx with h | h
    · intro he
      subst he
      exact absurd (List.all_eq_true.mp hwf.1.2 ':' h) (by decide)
    · cases proto with
      | none => exact absurd h (by simp [protoPart])
      | some p =>
        rcases List.mem_cons.mp h with h | h
        · subst h
          decide
        · intro he
          subst he
          exact absurd (List.all_eq_true.mp (hwf.2.1 p rfl).2 ':' h) (by decide)
  have hd : Dsn.display ⟨driver, proto, un, pw, addrs, frag, db, params⟩
      = (driver ++ protoPart proto) ++ ':' :: '/' :: '/' ::
        (userinfoPart un pw ++ addrsPart addrs ++ dbPart db ++ fragPart frag
          ++ paramsPart params) := by
    show driver ++ protoPart proto ++ "://".data ++ userinfoPart un pw
      ++ addrsPart addrs ++ dbPart db ++ fragPart frag ++ paramsPart params = _
    rw [show "://".data = [':', '/', '/'] from rfl]
    simp [List.append_assoc]
  rw [hd]
  unfold parseDsn
  rw [splitSchemeSep_append _ hcolon]
  simp only [Option.bind_eq_bind, Option.some_bind]
  rw [parseScheme_display hwf.1 hwf.2.1]
  simp only [Option.bind_eq_bind, Option.some_bind]
  exact parseDsnRest_display hwf hst

/-- Counterexample to C3: for the accepted DSN `taos://%76ar` the decoded
path `var` has only unreserved characters, so the display prints a bare
`var`, which re-parses as a host: `parse(format(parse(s)))` differs from
`parse(s)`.  Also, formatting is not the identity on the accepted
non-inline input `taos:///`, which prints back as `taos://`. -/
theorem claim_C3_counterexample :
    (parseDsn "taos://%76ar".data).bind (fun d => parseDsn (Dsn.display d))
      ≠ parseDsn "taos://%76ar".data ∧
    parseDsn "taos://%76ar".data
      = some ⟨"taos".data, none, none, none,
          [⟨none, none, some "var".data⟩], none, none, []⟩ ∧
    Dsn.display ⟨"taos".data, none, none, none,
        [⟨none, none, some "var".data⟩], none, none, []⟩ = "taos://var".data ∧
    parseDsn "taos://var".data
      = some ⟨"taos".data, none, none, none,
          [⟨some "var".data, none, none⟩], none, none, []⟩ ∧
    parseDsn "taos:///".data
      = some ⟨"taos".data, none, none, none, [], none, none, []⟩ ∧
    Dsn.display ⟨"taos".data, none, none, none, [], none, none, []⟩
      = "taos://".data := by
  decide

/-- C3 (amended): for every DSN string `s` the parser accepts, if every
percent-encoded path among the parsed addresses keeps at least one
character outside `[A-Za-z0-9_.~-]` (so its re-encoding keeps a `%`),
then re-parsing the formatted `Dsn` returns exactly the parsed value:
`parse(format(parse(s))) = parse(s)`. -/
theorem claim_C3_roundtrip_amended : ∀ (s : List Char) (d : Dsn),
    parseDsn s = some d → (∀ a ∈ d.addresses, a.stablePath = true) →
    parseDsn (Dsn.display d) = some d :=
  fun _ d h hst => parseDsn_display (parseDsn_wf h) hst

/-- Witness for C3: the round trip on
`taos+ws://root:pass@h1:6030,h2:6031/db?tz=UTC`. -/
theorem claim_C3_witness :
    parseDsn (Dsn.display ⟨"taos".data, some "ws".data, some "root".data,
        some "pass".data,
        [⟨some "h1".data, some 6030, none⟩, ⟨some "h2".data, some 6031, none⟩],
        none, some "db".data, [("tz".data, "UTC".data)]⟩)
      = some ⟨"taos".data, some "ws".data, some "root".data, some "pass".data,
          [⟨some "h1".data, some 6030, none⟩, ⟨some "h2".data, some 6031, none⟩],
          none, some "db".data, [("tz".data, "UTC".data)]⟩ :=
  claim_C3_roundtrip_amended
    "taos+ws://root:pass@h1:6030,h2:6031/db?tz=UTC".data _ (by decide)
    (by decide)

/-- Witness for C10: `taos://` with nothing else set gets the default
address and credentials, and a `sqlite` driver is rejected. -/
theorem claim_C10_witness :
    (∀ b, TaosBuilder.from_dsn
      (Dsn.mk "taos".data none none none [] none none []) = .ok b →
      b.addr = "localhost:6041".data ∧
      b.auth = .plain "root".data "taosdata".data) ∧
    (∃ e, TaosBuilder.from_dsn
      (Dsn.mk "sqlite".data none none none [] none none []) = .error e) := by
  constructor
  · intro b hb
    have h := (claim_C10_taos_builder_defaults
      (Dsn.mk "taos".data none none none [] none none [])).1 b hb
    exact ⟨(h.1 rfl), by simpa using h.2 rfl⟩
  · exact ((claim_C10_taos_builder_defaults
      (Dsn.mk "sqlite".data none none none [] none none [])).2.1).mpr (by decide)

/-- Witness for the amended C4 at declared length 1000. -/
theorem claim_C4_witness :
    v3_declared_len (lePad 4 1000 ++ v3DemoRest) = 1000 ∧
    v3_consumed_offset (lePad 4 1000 ++ v3DemoRest) 1 1 .millisecond = some 24 ∧
    (parse_from_raw_block (lePad 4 1000 ++ v3DemoRest) 1 1 .millisecond).isSome = true :=
  claim_C4_header_len_unchecked 1000 (by decide) (by decide)

/-- Witness for C1: the single-row Int column `[0, 0, 0, 0x80]` decodes
with its one element marked null. -/
theorem claim_C1_witness :
    is_null_unchecked
      (v2_fixed_nulls [0, 0, 0, 0x80] 4 0x80000000 1) 0 = true :=
  (claim_C1_v2_sentinel_nulls [0, 0, 0, 0x80] [(.int, 4)] 1 .millisecond
    [.fixedWidth .int (v2_fixed_nulls [0, 0, 0, 0x80] 4 0x80000000 1) [0, 0, 0, 0x80]]
    0 (.fixedWidth .int (v2_fixed_nulls [0, 0, 0, 0x80] 4 0x80000000 1) [0, 0, 0, 0x80])
    .int (v2_fixed_nulls [0, 0, 0, 0x80] 4 0x80000000 1) [0, 0, 0, 0x80]
    4 0x80000000 0
    (by decide) (by decide) (by decide) (by decide) (by decide) (by decide)).mpr
    (by decide)

end TaosWs
